import Mathlib

/-!
# ConsoleApplication3: a multilevel feedback queue scheduler

Shallow embedding of `src/ConsoleApplication3.cpp` (classes `DynamicQueue` and
`ProcessManager`) and theorems about it.

Modelling conventions.

* The levels of the queue are `DQNode` objects on the free store, reached through raw
  pointers.  The free store is modelled as a list of cells indexed by address; a cell is
  `none` once the node has been `delete`d, and `new` always returns the next unused address.
* `new DQNode` default-initialises the node: `processes` is empty and the pointer member
  `next` is left indeterminate.  `DQNode.next` is therefore an `Option Ptr`, `none` meaning
  "never assigned".
* Every member function is a function from the object state to `Except Fault _`.  A `Fault`
  is returned when the C++ code does not return normally: it blocks forever, or it performs
  an operation with undefined behaviour (reading an indeterminate pointer, dereferencing a
  null or deleted node, `front()` / `pop_front()` on an empty list).
* The functions describe the effect of one call executed by one thread.  The member functions
  that lock a mutex are given twice.  The definitions of the namespace `Locks` are the member
  functions as written: every `lock_guard` / `unique_lock` statement is executed on the list
  of mutexes held by the calling thread, and locking a mutex that the thread already holds is
  a fault.  As written, no call of `enqueue`, `promote`, `dequeue` or `createProcess` returns,
  and `split_n_merge`, `wakeUpProcesses` and an iteration of the loop of `runProcesses` return
  only when they change nothing (section "Lemmas on the lock statements").  The definitions of
  the same names outside `Locks` are the bodies of these functions with the lock statements
  left out; they show what the statements of a body do, and which faults they have besides the
  locking.  Every call as written that returns is a returning call of the body without its
  lock statements, with the same result.
* `int` values are integers; the conversion of `threshold` to `size_t` in the comparison
  `size() > threshold` and the conversions in `ProcessManager::currentProcesses` are taken
  into account.  List sizes are assumed to be below `2 ^ 31`, so that `int halfSize = size() / 2`
  is exact, and signed counters are assumed not to overflow.
-/

namespace ConsoleApplication3

deriving instance DecidableEq for Except

/-- The struct `Process` (lines 16-22), fields in declaration order. -/
structure Process where
  pid : Int
  remainingTime : Int
  wakeupTime : Int
  isForeground : Bool
  isPromoted : Bool
deriving DecidableEq, Repr

/-- A value of type `DQNode*`: the null pointer or the address of a cell of the free store. -/
inductive Ptr where
  | null : Ptr
  | addr : Nat → Ptr
deriving DecidableEq, Repr

/-- The struct `DQNode` (lines 24-27).  `next = none` is the indeterminate value left by
`new DQNode`. -/
structure DQNode where
  processes : List Process
  next : Option Ptr
deriving DecidableEq, Repr

/-- The ways in which a call fails to return normally. -/
inductive Fault where
  | blocked : Fault
  | indeterminateRead : Fault
  | invalidAccess : Fault
  | emptyList : Fault
  | relock : Fault
  | fuel : Fault
deriving DecidableEq, Repr

/-- The free store: cell `a` holds the node at address `a`, or `none` after `delete`. -/
abbrev Heap := List (Option DQNode)

/-- The node stored at address `a`, if that address holds a live node. -/
def cell (h : Heap) (a : Nat) : Option DQNode := h.getD a none

/-- The data members of `DynamicQueue` (lines 31-38) together with the free store holding
its nodes. -/
structure DynamicQueue where
  heap : Heap
  bottom : Ptr
  top : Ptr
  threshold : Int
  totalProcesses : Int
  currentProcesses : Int
  promotionIndex : Int
deriving DecidableEq, Repr

/-- The comparison `size() > threshold` of line 105.  `size()` is a `size_t`, so the `int`
threshold is converted to `size_t` before comparing: a non-negative threshold keeps its
value, a negative one becomes a value of at least `2 ^ 64 - 2 ^ 31`, which no list size
exceeds. -/
def exceeds (size : Nat) (threshold : Int) : Bool :=
  decide (0 ≤ threshold ∧ threshold < (size : Int))

/-- The loop of lines 108-111: `k` times, copy the front of `src` to the back of `temp` and
pop it. -/
def moveFront : Nat → List Process → List Process → Except Fault (List Process × List Process)
  | 0, src, temp => Except.ok (src, temp)
  | _ + 1, [], _ => Except.error Fault.emptyList
  | k + 1, x :: src, temp => moveFront k src (temp ++ [x])

namespace DynamicQueue

/-- The constructor `DynamicQueue(int totalProcesses)` (line 41); `/` on `int` truncates
towards zero. -/
def new (totalProcesses : Int) : DynamicQueue :=
  { heap := [], bottom := Ptr.null, top := Ptr.null,
    threshold := Int.tdiv totalProcesses 3, totalProcesses := totalProcesses,
    currentProcesses := 0, promotionIndex := 0 }

/-- The processes of the level `p` points to, when `p` points to a live node. -/
def level (q : DynamicQueue) (p : Ptr) : Option (List Process) :=
  match p with
  | Ptr.null => none
  | Ptr.addr a => (cell q.heap a).map DQNode.processes

/-- The number of processes in the top level (0 when there is no live top level). -/
def topSize (q : DynamicQueue) : Nat :=
  match q.level q.top with
  | some l => l.length
  | none => 0

/-- The body of `split_n_merge` without its recursive call (lines 105-115).  The result is
`none` when the condition of line 105 is false, and the state reached at line 115 otherwise. -/
def splitStep (q : DynamicQueue) : Except Fault (Option DynamicQueue) :=
  match q.top with
  | Ptr.null => Except.ok none
  | Ptr.addr a =>
    match cell q.heap a with
    | none => Except.error Fault.invalidAccess
    | some node =>
      if exceeds node.processes.length q.threshold then
        let halfSize := node.processes.length / 2
        match moveFront halfSize node.processes [] with
        | Except.error e => Except.error e
        | Except.ok (rest, temp) =>
          let heap1 := q.heap.set a (some { node with processes := rest })
          let newNode : DQNode := { processes := temp, next := some (Ptr.addr a) }
          Except.ok (some { q with heap := heap1 ++ [some newNode],
                                   top := Ptr.addr heap1.length })
      else Except.ok none

/-- The recursion of `split_n_merge` with the lock statement of line 104 left out, bounded by
`fuel` nested calls.  With the lock statement: `Locks.splitLoop`. -/
def splitLoop : Nat → DynamicQueue → Except Fault DynamicQueue
  | 0, _ => Except.error Fault.fuel
  | fuel + 1, q =>
    match splitStep q with
    | Except.error e => Except.error e
    | Except.ok none => Except.ok q
    | Except.ok (some q1) => splitLoop fuel q1

/-- The body of the member function `split_n_merge` (lines 103-118) with the lock statement of
line 104 left out.  Each nested call sees a top level of at most half the size, so
`topSize q + 1` nested calls always suffice.  The member function as written is
`Locks.split_n_merge`. -/
def split_n_merge (q : DynamicQueue) : Except Fault DynamicQueue :=
  splitLoop (q.topSize + 1) q

/-- The statement `a->processes.push_back(p)`. -/
def pushBack (q : DynamicQueue) (a : Nat) (p : Process) : Except Fault DynamicQueue :=
  match cell q.heap a with
  | none => Except.error Fault.invalidAccess
  | some node =>
    Except.ok { q with heap := q.heap.set a (some { node with processes := node.processes ++ [p] }) }

/-- The statements `x = new DQNode; x->processes.push_back(p); top = bottom = x` of lines
47-49 and 55-57. -/
def pushNew (q : DynamicQueue) (p : Process) : DynamicQueue :=
  { q with heap := q.heap ++ [some { processes := [p], next := none }],
           top := Ptr.addr q.heap.length, bottom := Ptr.addr q.heap.length }

/-- Lines 45-61 of `enqueue`: the insertion and the increment of `currentProcesses`. -/
def place (q : DynamicQueue) (p : Process) : Except Fault DynamicQueue :=
  let placed : Except Fault DynamicQueue :=
    if p.isForeground then
      match q.top with
      | Ptr.null => Except.ok (q.pushNew p)
      | Ptr.addr a => q.pushBack a p
    else
      match q.bottom with
      | Ptr.null => Except.ok (q.pushNew p)
      | Ptr.addr a => q.pushBack a p
  match placed with
  | Except.error e => Except.error e
  | Except.ok q1 => Except.ok { q1 with currentProcesses := q1.currentProcesses + 1 }

/-- The body of the member function `enqueue` (lines 43-64) with the lock statements of lines
44 and 104 left out.  The member function as written is `Locks.enqueue`. -/
def enqueue (q : DynamicQueue) (p : Process) : Except Fault DynamicQueue :=
  match q.place p with
  | Except.error e => Except.error e
  | Except.ok q1 => q1.split_n_merge

/-- One test of the loop condition of `promote` (line 86) followed, when `p != top`, by one
execution of the loop body (lines 87-98); `fuel` bounds the number of tests. -/
def promoteLoop : Nat → DynamicQueue → Ptr → Except Fault DynamicQueue
  | 0, _, _ => Except.error Fault.fuel
  | fuel + 1, q, p =>
    if p = q.top then Except.ok q
    else
      match p with
      | Ptr.null => Except.error Fault.invalidAccess
      | Ptr.addr a =>
        match cell q.heap a with
        | none => Except.error Fault.invalidAccess
        | some node =>
          match node.processes with
          | [] =>
            match node.next with
            | none => Except.error Fault.indeterminateRead
            | some nx => promoteLoop fuel q nx
          | x :: rest =>
            match q.top with
            | Ptr.null => Except.error Fault.invalidAccess
            | Ptr.addr t =>
              match cell q.heap t with
              | none => Except.error Fault.invalidAccess
              | some topNode =>
                let heap1 := q.heap.set t
                  (some { topNode with
                    processes := topNode.processes ++ [{ x with isPromoted := true }] })
                match node.next with
                | none => Except.error Fault.indeterminateRead
                | some nx =>
                  if rest = [] then
                    promoteLoop fuel { q with heap := heap1.set a none } nx
                  else
                    promoteLoop fuel
                      { q with heap := heap1.set a (some { node with processes := rest }) } nx

/-- The total number of processes stored in live nodes of the free store. -/
def stored (h : Heap) : Nat :=
  (h.map (fun c => match c with
    | some node => node.processes.length
    | none => 0)).sum

/-- The walk of `promote` (lines 85-99), before the final call of `split_n_merge`.  A walk
that has not ended after `(heap.length + 1) * (stored + 1)` tests is reported as
`Fault.fuel`. -/
def promoteWalk (q : DynamicQueue) : Except Fault DynamicQueue :=
  promoteLoop ((q.heap.length + 1) * (stored q.heap + 1)) q q.bottom

/-- The body of the member function `promote` (lines 83-101) with the lock statements of lines
84 and 104 left out.  The member function as written is `Locks.promote`. -/
def promote (q : DynamicQueue) : Except Fault DynamicQueue :=
  match q.promoteWalk with
  | Except.error e => Except.error e
  | Except.ok q1 => q1.split_n_merge

/-- Lines 68-78 of `dequeue`: the wait, the removal of the front process of the top level,
the unlinking of an emptied top level and the decrement of `currentProcesses`.  With no
other thread to enqueue, the wait of lines 68-70 on a null `top` never ends. -/
def take (q : DynamicQueue) : Except Fault (Process × DynamicQueue) :=
  match q.top with
  | Ptr.null => Except.error Fault.blocked
  | Ptr.addr a =>
    match cell q.heap a with
    | none => Except.error Fault.invalidAccess
    | some node =>
      match node.processes with
      | [] => Except.error Fault.emptyList
      | p :: rest =>
        if rest = [] then
          match node.next with
          | none => Except.error Fault.indeterminateRead
          | some nx =>
            Except.ok (p, { q with heap := q.heap.set a none, top := nx,
                                   currentProcesses := q.currentProcesses - 1 })
        else
          Except.ok (p, { q with heap := q.heap.set a (some { node with processes := rest }),
                                 currentProcesses := q.currentProcesses - 1 })

/-- The body of the member function `dequeue` (lines 66-81) with the lock statements of lines
67, 84 and 104 left out.  The member function as written is `Locks.dequeue`. -/
def dequeue (q : DynamicQueue) : Except Fault (Process × DynamicQueue) :=
  match q.take with
  | Except.error e => Except.error e
  | Except.ok (p, q1) =>
    match q1.promote with
    | Except.error e => Except.error e
    | Except.ok q2 => Except.ok (p, q2)

/-- The member function `getCurrentProcesses` (lines 120-122). -/
def getCurrentProcesses (q : DynamicQueue) : Int := q.currentProcesses

/-- The member function `getBottom` (lines 124-126). -/
def getBottom (q : DynamicQueue) : Ptr := q.bottom

/-- The state at line 115 when the top node `node`, stored at address `a`, is split: the first
`size / 2` processes are in a new node, which is the new `top` and whose `next` is `a`. -/
def splitAt (q : DynamicQueue) (a : Nat) (node : DQNode) : DynamicQueue :=
  { q with
    heap := q.heap.set a
        (some { node with processes := node.processes.drop (node.processes.length / 2) }) ++
      [some { processes := node.processes.take (node.processes.length / 2),
              next := some (Ptr.addr a) }],
    top := Ptr.addr q.heap.length }

/-- The pointer `p` is null or points to a live node of the free store `h`. -/
def Usable (h : Heap) (p : Ptr) : Prop :=
  p = Ptr.null ∨ ∃ a node, p = Ptr.addr a ∧ cell h a = some node

/-- The state of the top level when `split_n_merge` returns: `top` is null, or it points to
a live node on which the comparison of line 105 is false. -/
def TopSettled (q : DynamicQueue) : Prop :=
  q.top = Ptr.null ∨
    ∃ a node, q.top = Ptr.addr a ∧ cell q.heap a = some node ∧
      exceeds node.processes.length q.threshold = false

/-- The pointers `top` and `bottom` are both null, or both point to live nodes. -/
def WellAnchored (q : DynamicQueue) : Prop :=
  (q.top = Ptr.null ∧ q.bottom = Ptr.null) ∨
    ((q.level q.top).isSome ∧ (q.level q.bottom).isSome)

/-- The level `enqueue` selects for `p` (line 45): `top` for a foreground process, `bottom`
for a background process. -/
def target (q : DynamicQueue) (p : Process) : Ptr :=
  if p.isForeground then q.top else q.bottom

/-- The queue states reached from the queue constructed with `capacity` by calls of
`enqueue`, `dequeue` and `promote` that return, the lock statements being left out. -/
inductive Reachable (capacity : Int) : DynamicQueue → Prop
  | init : Reachable capacity (DynamicQueue.new capacity)
  | enqueue {q q1 : DynamicQueue} (p : Process) :
      Reachable capacity q → q.enqueue p = Except.ok q1 → Reachable capacity q1
  | dequeue {q q1 : DynamicQueue} (p : Process) :
      Reachable capacity q → q.dequeue = Except.ok (p, q1) → Reachable capacity q1
  | promote {q q1 : DynamicQueue} :
      Reachable capacity q → q.promote = Except.ok q1 → Reachable capacity q1

/-- `Chain h t b l`: the nodes at the addresses `l` are live and pairwise distinct, `l` starts
with `t` and ends with `b`, every node of `l` but the last has the address of its successor in
`l` as `next`, and the `next` of the last node was never assigned. -/
inductive Chain (h : Heap) : Nat → Nat → List Nat → Prop
  | single {b : Nat} {node : DQNode} :
      cell h b = some node → node.next = none → Chain h b b [b]
  | link {a a1 b : Nat} {l : List Nat} {node : DQNode} :
      cell h a = some node → node.next = some (Ptr.addr a1) → a ∉ l →
      Chain h a1 b l → Chain h a b (a :: l)

/-- The shape of the queue states reached through the member functions: there is no level and
`top` and `bottom` are null, or the levels form a chain from `top` to `bottom`. -/
def Shaped (q : DynamicQueue) : Prop :=
  (q.top = Ptr.null ∧ q.bottom = Ptr.null) ∨
    ∃ t b l, q.top = Ptr.addr t ∧ q.bottom = Ptr.addr b ∧ Chain q.heap t b l

/-- Successive calls of `enqueue` (lock statements left out), one for each process of `ps` in
order. -/
def enqueueAll (q : DynamicQueue) : List Process → Except Fault DynamicQueue
  | [] => Except.ok q
  | p :: ps =>
    match q.enqueue p with
    | Except.error e => Except.error e
    | Except.ok q1 => enqueueAll q1 ps

end DynamicQueue

/-- The comparator passed to `waitQueue.sort` (lines 164-166). -/
def wakesEarlier (a b : Process) : Bool := decide (a.wakeupTime < b.wakeupTime)

/-- The library call `std::list::sort(comp)`, a stable sort: `a` is placed before `b` unless
`comp(b, a)` holds, and elements that compare equivalent keep their order. -/
def listSort (comp : Process → Process → Bool) (l : List Process) : List Process :=
  l.insertionSort (fun a b => comp b a = false)

/-- Conversion of an integer value to `int` (32 bits, two's complement). -/
def toInt32 (x : Int) : Int := (x + 2 ^ 31) % 2 ^ 32 - 2 ^ 31

/-- The data members of `ProcessManager` (lines 131-135). -/
structure ProcessManager where
  dq : DynamicQueue
  waitQueue : List Process
  currentTime : Int
deriving DecidableEq, Repr

namespace ProcessManager

/-- The constructor `ProcessManager(int totalProcesses)` (line 138). -/
def new (totalProcesses : Int) : ProcessManager :=
  { dq := DynamicQueue.new totalProcesses, waitQueue := [], currentTime := 0 }

/-- The member function `currentProcesses` (lines 183-185): the `int` count is converted to
`size_t`, added to `waitQueue.size()`, and the sum is converted to the return type `int`. -/
def currentProcesses (pm : ProcessManager) : Int :=
  toInt32 ((pm.dq.getCurrentProcesses % 2 ^ 64 + (pm.waitQueue.length : Int)) % 2 ^ 64)

/-- The aggregate initialisation of line 142.  The five initialisers are assigned to the
members of `Process` in declaration order: `pid`, `remainingTime`, `wakeupTime`,
`isForeground`, `isPromoted`, with the conversions `bool` to `int` and `int` to `bool`. -/
def makeProcess (pm : ProcessManager) (isForeground : Bool) (duration : Int) : Process :=
  { pid := pm.currentProcesses,
    remainingTime := if isForeground then 1 else 0,
    wakeupTime := duration,
    isForeground := false,
    isPromoted := decide (pm.currentTime + duration ≠ 0) }

/-- The body of the member function `createProcess` (lines 140-145) with the lock statements
left out.  The member function as written is `Locks.createProcess`. -/
def createProcess (pm : ProcessManager) (isForeground : Bool) (duration : Int) :
    Except Fault ProcessManager :=
  match pm.dq.enqueue (pm.makeProcess isForeground duration) with
  | Except.error e => Except.error e
  | Except.ok dq1 => Except.ok { pm with dq := dq1 }

/-- The loop of `wakeUpProcesses` (lines 176-180) at clock value `now`, with the lock
statements of `enqueue` left out.  With the lock statements: `Locks.wakeLoop`. -/
def wakeLoop (now : Int) : List Process → DynamicQueue → Except Fault (List Process × DynamicQueue)
  | [], dq => Except.ok ([], dq)
  | p :: rest, dq =>
    if p.wakeupTime ≤ now then
      match dq.enqueue p with
      | Except.error e => Except.error e
      | Except.ok dq1 => wakeLoop now rest dq1
    else Except.ok (p :: rest, dq)

/-- The body of the member function `wakeUpProcesses` (lines 174-181) with the lock statements
left out.  The member function as written is `Locks.wakeUpProcesses`. -/
def wakeUpProcesses (pm : ProcessManager) : Except Fault ProcessManager :=
  match wakeLoop pm.currentTime pm.waitQueue pm.dq with
  | Except.error e => Except.error e
  | Except.ok (wq, dq1) => Except.ok { pm with dq := dq1, waitQueue := wq }

/-- The walk of `printDQ` (lines 189-196) from `p`, following `next` until the null pointer;
the result lists the processes written to the console.  The walk does not change the free
store, so a walk of more than `heap.length` nodes never ends. -/
def printLoop (h : Heap) : Nat → Ptr → Except Fault (List Process)
  | 0, _ => Except.error Fault.fuel
  | _ + 1, Ptr.null => Except.ok []
  | fuel + 1, Ptr.addr a =>
    match cell h a with
    | none => Except.error Fault.invalidAccess
    | some node =>
      match node.next with
      | none => Except.error Fault.indeterminateRead
      | some nx =>
        match printLoop h fuel nx with
        | Except.error e => Except.error e
        | Except.ok out => Except.ok (node.processes ++ out)

/-- The body of the member function `printDQ` (lines 187-198) with the lock statement of line
188 left out.  The member function as written is `Locks.printDQ`. -/
def printDQ (pm : ProcessManager) : Except Fault (List Process) :=
  printLoop pm.dq.heap (pm.dq.heap.length + 1) pm.dq.getBottom

/-- The body of the member function `printWQ` (lines 200-207) with its lock statement left
out: the processes written to the console.  The member function as written is
`Locks.printWQ`. -/
def printWQ (pm : ProcessManager) : List Process := pm.waitQueue

/-- Lines 161-167 of `runProcesses`: the wait queue after the dispatched process `p` has run
for one quantum. -/
def waitAfterRun (p : Process) (waitQueue : List Process) : List Process :=
  let p1 : Process := { p with remainingTime := p.remainingTime - 1 }
  if p1.remainingTime > 0 then listSort wakesEarlier (waitQueue ++ [p1]) else waitQueue

/-- Lines 161-168 of `runProcesses`: the state before the call of `wakeUpProcesses`, when
`dequeue` has returned the process `p` and left the queue `dq1`. -/
def afterQuantum (pm : ProcessManager) (p : Process) (dq1 : DynamicQueue) : ProcessManager :=
  { dq := dq1, waitQueue := waitAfterRun p pm.waitQueue, currentTime := pm.currentTime + 1 }

/-- One iteration of the loop of `runProcesses` (lines 149-170) with the lock statements left
out.  The result is `none` when the loop is left by `break`, and otherwise the dispatched
process (as returned by `dequeue`) with the state at the end of the iteration.  The iteration
as written is `Locks.runStep`. -/
def runStep (pm : ProcessManager) : Except Fault (Option (Process × ProcessManager)) :=
  if pm.dq.getCurrentProcesses = 0 ∧ pm.waitQueue = [] then Except.ok none
  else
    match pm.dq.dequeue with
    | Except.error e => Except.error e
    | Except.ok (p, dq1) =>
      match printDQ { pm with dq := dq1 } with
      | Except.error e => Except.error e
      | Except.ok _ =>
        (wakeUpProcesses (pm.afterQuantum p dq1)).map (fun pm1 => some (p, pm1))

/-- The member function `runProcesses` (lines 147-172) with the lock statements left out,
bounded by `fuel` iterations; the result lists the dispatched processes in order, with the
final state. -/
def runProcesses : Nat → ProcessManager → Except Fault (List Process × ProcessManager)
  | 0, _ => Except.error Fault.fuel
  | fuel + 1, pm =>
    match pm.runStep with
    | Except.error e => Except.error e
    | Except.ok none => Except.ok ([], pm)
    | Except.ok (some (p, pm1)) =>
      match runProcesses fuel pm1 with
      | Except.error e => Except.error e
      | Except.ok (ps, pm2) => Except.ok (p :: ps, pm2)

end ProcessManager

/-- The mutexes of the program: the member `mtx` of `DynamicQueue` (line 33), the member `mtx`
of `ProcessManager` (line 133) and the global `mtx` (line 14). -/
inductive Mutex where
  | queue : Mutex
  | manager : Mutex
  | console : Mutex
deriving DecidableEq, Repr

/-- The statement `lock_guard<mutex> lock(m)` (or `unique_lock<mutex> lock(m)`) executed by a
thread that holds the mutexes `held`.  `std::mutex` is not recursive: locking a mutex that the
calling thread already owns has undefined behaviour (in practice the thread waits for itself).
Otherwise the thread holds `m` until the end of the enclosing scope. -/
def acquire (m : Mutex) (held : List Mutex) : Except Fault (List Mutex) :=
  if m ∈ held then Except.error Fault.relock else Except.ok (m :: held)

namespace Locks

/-- The recursion of `split_n_merge` with the lock statement of line 104: every nested call is
made while the guard of the calling one is in scope. -/
def splitLoop : Nat → List Mutex → DynamicQueue → Except Fault DynamicQueue
  | 0, _, _ => Except.error Fault.fuel
  | fuel + 1, held, q =>
    match acquire Mutex.queue held with
    | Except.error e => Except.error e
    | Except.ok held1 =>
      match q.splitStep with
      | Except.error e => Except.error e
      | Except.ok none => Except.ok q
      | Except.ok (some q1) => splitLoop fuel held1 q1

/-- The member function `split_n_merge` (lines 103-118) called by a thread that holds the
mutexes `held`. -/
def split_n_merge (held : List Mutex) (q : DynamicQueue) : Except Fault DynamicQueue :=
  splitLoop (q.topSize + 1) held q

/-- The member function `enqueue` (lines 43-64) called by a thread that holds the mutexes
`held`: the guard of line 44 is in scope when `split_n_merge` is called at line 63. -/
def enqueue (held : List Mutex) (q : DynamicQueue) (p : Process) : Except Fault DynamicQueue :=
  match acquire Mutex.queue held with
  | Except.error e => Except.error e
  | Except.ok held1 =>
    match q.place p with
    | Except.error e => Except.error e
    | Except.ok q1 => split_n_merge held1 q1

/-- The member function `promote` (lines 83-101) called by a thread that holds the mutexes
`held`: the guard of line 84 is in scope when `split_n_merge` is called at line 100. -/
def promote (held : List Mutex) (q : DynamicQueue) : Except Fault DynamicQueue :=
  match acquire Mutex.queue held with
  | Except.error e => Except.error e
  | Except.ok held1 =>
    match q.promoteWalk with
    | Except.error e => Except.error e
    | Except.ok q1 => split_n_merge held1 q1

/-- The member function `dequeue` (lines 66-81) called by a thread that holds the mutexes
`held`: the lock of line 67 is held when `promote` is called at line 79. -/
def dequeue (held : List Mutex) (q : DynamicQueue) : Except Fault (Process × DynamicQueue) :=
  match acquire Mutex.queue held with
  | Except.error e => Except.error e
  | Except.ok held1 =>
    match q.take with
    | Except.error e => Except.error e
    | Except.ok (p, q1) =>
      match promote held1 q1 with
      | Except.error e => Except.error e
      | Except.ok q2 => Except.ok (p, q2)

/-- The member function `createProcess` (lines 140-145) called by a thread that holds the
mutexes `held`. -/
def createProcess (held : List Mutex) (pm : ProcessManager) (isForeground : Bool)
    (duration : Int) : Except Fault ProcessManager :=
  match acquire Mutex.manager held with
  | Except.error e => Except.error e
  | Except.ok held1 =>
    match enqueue held1 pm.dq (pm.makeProcess isForeground duration) with
    | Except.error e => Except.error e
    | Except.ok dq1 => Except.ok { pm with dq := dq1 }

/-- The loop of `wakeUpProcesses` (lines 176-180) run by a thread that holds the mutexes
`held`. -/
def wakeLoop (held : List Mutex) (now : Int) :
    List Process → DynamicQueue → Except Fault (List Process × DynamicQueue)
  | [], dq => Except.ok ([], dq)
  | p :: rest, dq =>
    if p.wakeupTime ≤ now then
      match enqueue held dq p with
      | Except.error e => Except.error e
      | Except.ok dq1 => wakeLoop held now rest dq1
    else Except.ok (p :: rest, dq)

/-- The member function `wakeUpProcesses` (lines 174-181) called by a thread that holds the
mutexes `held`. -/
def wakeUpProcesses (held : List Mutex) (pm : ProcessManager) : Except Fault ProcessManager :=
  match acquire Mutex.manager held with
  | Except.error e => Except.error e
  | Except.ok held1 =>
    match wakeLoop held1 pm.currentTime pm.waitQueue pm.dq with
    | Except.error e => Except.error e
    | Except.ok (wq, dq1) => Except.ok { pm with dq := dq1, waitQueue := wq }

/-- The member function `printDQ` (lines 187-198) called by a thread that holds the mutexes
`held`. -/
def printDQ (held : List Mutex) (pm : ProcessManager) : Except Fault (List Process) :=
  match acquire Mutex.manager held with
  | Except.error e => Except.error e
  | Except.ok _ => pm.printDQ

/-- The member function `printWQ` (lines 200-207) called by a thread that holds the mutexes
`held`. -/
def printWQ (held : List Mutex) (pm : ProcessManager) : Except Fault (List Process) :=
  match acquire Mutex.manager held with
  | Except.error e => Except.error e
  | Except.ok _ => Except.ok pm.printWQ

/-- One iteration of the loop of `runProcesses` (lines 149-170) run by a thread that holds
the mutexes `held`: the guard of line 149 is in scope for the whole iteration. -/
def runStep (held : List Mutex) (pm : ProcessManager) :
    Except Fault (Option (Process × ProcessManager)) :=
  match acquire Mutex.manager held with
  | Except.error e => Except.error e
  | Except.ok held1 =>
    if pm.dq.getCurrentProcesses = 0 ∧ pm.waitQueue = [] then Except.ok none
    else
      match dequeue held1 pm.dq with
      | Except.error e => Except.error e
      | Except.ok (p, dq1) =>
        match printDQ held1 { pm with dq := dq1 } with
        | Except.error e => Except.error e
        | Except.ok _ =>
          match printWQ held1 { pm with dq := dq1 } with
          | Except.error e => Except.error e
          | Except.ok _ =>
            (wakeUpProcesses held1 (pm.afterQuantum p dq1)).map (fun pm1 => some (p, pm1))

end Locks

/-- The order of the wait queue: ascending `wakeupTime`. -/
def WakeSorted (l : List Process) : Prop :=
  l.Pairwise (fun a b => a.wakeupTime ≤ b.wakeupTime)

/-- The record that `runProcesses` appends to the wait queue for the dispatched process `p`
(lines 161-163), if any. -/
def entering (p : Process) : List Process :=
  if 0 < p.remainingTime - 1 then [{ p with remainingTime := p.remainingTime - 1 }] else []

namespace ProcessManager

/-- Runs of the manager: `Iterates pm0 es pm` holds when `pm` is reached from `pm0` by
iterations of the loop of `runProcesses` and calls of `createProcess` that return, the lock
statements being left out; `es` lists the records that entered the wait queue during the run,
in the order of entry. -/
inductive Iterates (pm0 : ProcessManager) : List Process → ProcessManager → Prop
  | start : Iterates pm0 [] pm0
  | step {es : List Process} {pm pm1 : ProcessManager} (p : Process) :
      Iterates pm0 es pm → pm.runStep = Except.ok (some (p, pm1)) →
      Iterates pm0 (es ++ entering p) pm1
  | create {es : List Process} {pm pm1 : ProcessManager} (isForeground : Bool)
      (duration : Int) :
      Iterates pm0 es pm → pm.createProcess isForeground duration = Except.ok pm1 →
      Iterates pm0 es pm1

/-- The property of the wait queue kept by every iteration: it is sorted by `wakeupTime`, and
for each wake-up time `w` its records with that wake-up time are, in their order, among the
records `es` that entered the wait queue, in the order of entry. -/
def WaitInvariant (wq es : List Process) : Prop :=
  WakeSorted wq ∧
    ∀ w : Int, (wq.filter (fun p => decide (p.wakeupTime = w))).Sublist
      (es.filter (fun p => decide (p.wakeupTime = w)))

end ProcessManager

/-- A foreground process with the given pid, three quanta of work and wake-up time 7. -/
def fgProc (pid : Int) : Process :=
  { pid := pid, remainingTime := 3, wakeupTime := 7, isForeground := true, isPromoted := false }

/-- A background process with the given pid, three quanta of work and wake-up time 7. -/
def bgProc (pid : Int) : Process :=
  { pid := pid, remainingTime := 3, wakeupTime := 7, isForeground := false, isPromoted := false }

/-- The queue state after `enqueue (fgProc 1)` and `enqueue (fgProc 2)` on a queue of
capacity 3: the second call splits the top level. -/
def twoLevels : DynamicQueue :=
  { heap := [some { processes := [fgProc 2], next := none },
             some { processes := [fgProc 1], next := some (Ptr.addr 0) }],
    bottom := Ptr.addr 0, top := Ptr.addr 1, threshold := 1, totalProcesses := 3,
    currentProcesses := 2, promotionIndex := 0 }

/-- The queue state after `enqueue (fgProc 1)` on a queue of capacity 9. -/
def oneProcess : DynamicQueue :=
  { heap := [some { processes := [fgProc 1], next := none }],
    bottom := Ptr.addr 0, top := Ptr.addr 0, threshold := 3, totalProcesses := 9,
    currentProcesses := 1, promotionIndex := 0 }

/-- A queue of capacity 9 whose only level holds four processes: the state of `enqueue` at
line 62, before `split_n_merge`, when the fourth foreground process is enqueued. -/
def fourInTop : DynamicQueue :=
  { heap := [some { processes := [fgProc 1, fgProc 2, fgProc 3, fgProc 4], next := none }],
    bottom := Ptr.addr 0, top := Ptr.addr 0, threshold := 3, totalProcesses := 9,
    currentProcesses := 4, promotionIndex := 0 }

/-- The queue state after `enqueue` of the background processes 1, 2, 3 on a queue of
capacity 3. -/
def threeBackground : DynamicQueue :=
  { heap := [some { processes := [bgProc 2, bgProc 3], next := none },
             some { processes := [bgProc 1], next := some (Ptr.addr 0) }],
    bottom := Ptr.addr 0, top := Ptr.addr 1, threshold := 1, totalProcesses := 3,
    currentProcesses := 3, promotionIndex := 0 }

/-- The queue state after `enqueue` of the foreground processes 1, 2, 3 on a queue of
capacity 3. -/
def threeForeground : DynamicQueue :=
  { heap := [some { processes := [fgProc 2], next := none },
             some { processes := [fgProc 3], next := some (Ptr.addr 0) },
             some { processes := [fgProc 1], next := some (Ptr.addr 1) }],
    bottom := Ptr.addr 0, top := Ptr.addr 2, threshold := 1, totalProcesses := 3,
    currentProcesses := 3, promotionIndex := 0 }

/-- The queue state after `enqueue (fgProc 1)` and `enqueue (fgProc 2)` on a queue of
capacity 9. -/
def twoInTop : DynamicQueue :=
  { heap := [some { processes := [fgProc 1, fgProc 2], next := none }],
    bottom := Ptr.addr 0, top := Ptr.addr 0, threshold := 3, totalProcesses := 9,
    currentProcesses := 2, promotionIndex := 0 }

/-- The state `twoInTop` after `dequeue` has returned `fgProc 1`. -/
def twoInTopRest : DynamicQueue :=
  { heap := [some { processes := [fgProc 2], next := none }],
    bottom := Ptr.addr 0, top := Ptr.addr 0, threshold := 3, totalProcesses := 9,
    currentProcesses := 1, promotionIndex := 0 }

/-- A manager at time 0 with an empty wait queue whose queue is `twoInTop`. -/
def pmTwo : ProcessManager :=
  { dq := twoInTop, waitQueue := [], currentTime := 0 }

/-- A process waiting with two quanta of work left and the given wake-up time. -/
def waiter (pid wakeupTime : Int) : Process :=
  { pid := pid, remainingTime := 2, wakeupTime := wakeupTime, isForeground := true,
    isPromoted := false }

/-- A manager of capacity 9 at time 3 with an empty queue and three waiting processes, two of
which are due. -/
def pmWaiting : ProcessManager :=
  { dq := DynamicQueue.new 9, waitQueue := [waiter 1 1, waiter 2 2, waiter 3 9],
    currentTime := 3 }

/-- A manager at time 0 with an empty wait queue; its queue has one level holding two
processes, in a node whose member `next` holds the null pointer. -/
def pmLinked : ProcessManager :=
  { dq := { heap := [some { processes := [fgProc 1, fgProc 2], next := some Ptr.null }],
            bottom := Ptr.addr 0, top := Ptr.addr 0, threshold := 3, totalProcesses := 9,
            currentProcesses := 2, promotionIndex := 0 },
    waitQueue := [], currentTime := 0 }

/-- The state of `pmLinked` after one iteration of the loop of `runProcesses`. -/
def pmLinkedNext : ProcessManager :=
  { dq := { heap := [some { processes := [fgProc 2], next := some Ptr.null }],
            bottom := Ptr.addr 0, top := Ptr.addr 0, threshold := 3, totalProcesses := 9,
            currentProcesses := 1, promotionIndex := 0 },
    waitQueue := [{ fgProc 1 with remainingTime := 2 }], currentTime := 1 }

namespace DynamicQueue

/-- The processes stored in the nodes at the addresses `l`, in this order. -/
def content (h : Heap) : List Nat → List Process
  | [] => []
  | a :: l =>
    (match cell h a with
      | some node => node.processes
      | none => []) ++ content h l

end DynamicQueue

/-- The pids of a list of processes, as a multiset. -/
def pidsOf (ps : List Process) : Multiset Int := Multiset.ofList (ps.map Process.pid)

/-- The pids of the processes stored in one cell of the free store. -/
def cellPids : Option DQNode → Multiset Int
  | some node => pidsOf node.processes
  | none => 0

/-- The pids of all processes stored in live nodes of the free store. -/
def heapPids (h : Heap) : Multiset Int := (h.map cellPids).sum

/-- The record `runProcesses` discards for the dispatched process `p` (line 162), if any. -/
def finished (p : Process) : List Process :=
  if 0 < p.remainingTime - 1 then [] else [p]

namespace ProcessManager

/-- Runs of the manager with the processes admitted and discarded: `Runs pm0 adm fin pm` holds
when `pm` is reached from `pm0` by calls of `createProcess` and iterations of the loop of
`runProcesses` that return, the lock statements being left out; `adm` lists the processes
built by `createProcess` and `fin` the dispatched processes that were discarded as
complete. -/
inductive Runs (pm0 : ProcessManager) : List Process → List Process → ProcessManager → Prop
  | start : Runs pm0 [] [] pm0
  | create {adm fin : List Process} {pm pm1 : ProcessManager} (isForeground : Bool)
      (duration : Int) :
      Runs pm0 adm fin pm → pm.createProcess isForeground duration = Except.ok pm1 →
      Runs pm0 (adm ++ [pm.makeProcess isForeground duration]) fin pm1
  | step {adm fin : List Process} {pm pm1 : ProcessManager} (p : Process) :
      Runs pm0 adm fin pm → pm.runStep = Except.ok (some (p, pm1)) →
      Runs pm0 adm (fin ++ finished p) pm1

/-- The pids of the processes stored in the queue and in the wait queue. -/
def livePids (pm : ProcessManager) : Multiset Int :=
  heapPids pm.dq.heap + pidsOf pm.waitQueue

end ProcessManager

/-- The process built by `createProcess(true, 5)` on a fresh manager. -/
def procOne : Process :=
  { pid := 0, remainingTime := 1, wakeupTime := 5, isForeground := false, isPromoted := true }

/-- The state of a manager of capacity 10 after `createProcess(true, 5)`. -/
def pmOne : ProcessManager :=
  { dq := { heap := [some { processes := [procOne], next := none }],
            bottom := Ptr.addr 0, top := Ptr.addr 0, threshold := 3, totalProcesses := 10,
            currentProcesses := 1, promotionIndex := 0 },
    waitQueue := [], currentTime := 0 }

/-- A manager whose queue has no level and whose wait queue holds one process that is not
yet due. -/
def pmStarved : ProcessManager :=
  { dq := DynamicQueue.new 9, waitQueue := [waiter 1 5], currentTime := 0 }

/-- The process built by `createProcess(true, 3)` on a fresh manager (process A). -/
def procA : Process :=
  { pid := 0, remainingTime := 1, wakeupTime := 3, isForeground := false, isPromoted := true }

/-- The process built by the following call `createProcess(false, 1)` (process B). -/
def procB : Process :=
  { pid := 1, remainingTime := 0, wakeupTime := 1, isForeground := false, isPromoted := true }

/-- The state of a manager of capacity 9 after `createProcess(true, 3)` and
`createProcess(false, 1)`. -/
def pmScenario : ProcessManager :=
  { dq := { heap := [some { processes := [procA, procB], next := none }],
            bottom := Ptr.addr 0, top := Ptr.addr 0, threshold := 3, totalProcesses := 9,
            currentProcesses := 2, promotionIndex := 0 },
    waitQueue := [], currentTime := 0 }

/-- The queue of `pmScenario` after `dequeue` has returned process A. -/
def scenarioRest : DynamicQueue :=
  { heap := [some { processes := [procB], next := none }],
    bottom := Ptr.addr 0, top := Ptr.addr 0, threshold := 3, totalProcesses := 9,
    currentProcesses := 1, promotionIndex := 0 }

/-- The state `oneProcess` with the member `next` of its node holding the null pointer. -/
def oneLinked : DynamicQueue :=
  { heap := [some { processes := [fgProc 1], next := some Ptr.null }],
    bottom := Ptr.addr 0, top := Ptr.addr 0, threshold := 3, totalProcesses := 9,
    currentProcesses := 1, promotionIndex := 0 }

/-- The state `oneLinked` after lines 68-78 of `dequeue`. -/
def oneLinkedTaken : DynamicQueue :=
  { heap := [none], bottom := Ptr.addr 0, top := Ptr.null, threshold := 3, totalProcesses := 9,
    currentProcesses := 0, promotionIndex := 0 }

/-- The queue state after `enqueue (fgProc 1)` on a queue of capacity 0. -/
def zeroCapacity : DynamicQueue :=
  { heap := [some { processes := [fgProc 1], next := none },
             some { processes := [], next := some (Ptr.addr 0) }],
    bottom := Ptr.addr 0, top := Ptr.addr 1, threshold := 0, totalProcesses := 0,
    currentProcesses := 1, promotionIndex := 0 }

/-- The state of `enqueue (fgProc 1)` at line 62, before `split_n_merge`, on a queue of
capacity 0. -/
def placedZero : DynamicQueue :=
  { heap := [some { processes := [fgProc 1], next := none }],
    bottom := Ptr.addr 0, top := Ptr.addr 0, threshold := 0, totalProcesses := 0,
    currentProcesses := 1, promotionIndex := 0 }

/-- The state of `enqueue (bgProc 1)` at line 62, before `split_n_merge`, on a queue of
capacity 10. -/
def placedTen : DynamicQueue :=
  { heap := [some { processes := [bgProc 1], next := none }],
    bottom := Ptr.addr 0, top := Ptr.addr 0, threshold := 3, totalProcesses := 10,
    currentProcesses := 1, promotionIndex := 0 }

/-- The state of `enqueue (fgProc 1)` at line 62, before `split_n_merge`, on a queue of
capacity -3. -/
def placedNegative : DynamicQueue :=
  { heap := [some { processes := [fgProc 1], next := none }],
    bottom := Ptr.addr 0, top := Ptr.addr 0, threshold := -1, totalProcesses := -3,
    currentProcesses := 1, promotionIndex := 0 }

/-- The state reached from `pmWaiting` by the body of `wakeUpProcesses` with the lock
statements left out. -/
def pmWoken : ProcessManager :=
  { dq := { heap := [some { processes := [waiter 1 1, waiter 2 2], next := none }],
            bottom := Ptr.addr 0, top := Ptr.addr 0, threshold := 3, totalProcesses := 9,
            currentProcesses := 2, promotionIndex := 0 },
    waitQueue := [waiter 3 9], currentTime := 3 }

/-- The state of a manager of capacity 9 after `createProcess(true, 3)`. -/
def pmScenarioFirst : ProcessManager :=
  { dq := { heap := [some { processes := [procA], next := none }],
            bottom := Ptr.addr 0, top := Ptr.addr 0, threshold := 3, totalProcesses := 9,
            currentProcesses := 1, promotionIndex := 0 },
    waitQueue := [], currentTime := 0 }

namespace ProcessManager

end ProcessManager

/-! ## Lemmas on the free store and on `split_n_merge` -/

theorem cell_set_same {h : Heap} {a : Nat} (c : Option DQNode) (ha : a < h.length) :
    cell (h.set a c) a = c := by
  simp [cell, List.getD_eq_getElem?_getD, List.getElem?_set, ha]

theorem cell_set_other {h : Heap} {a b : Nat} (c : Option DQNode) (hab : a ≠ b) :
    cell (h.set a c) b = cell h b := by
  simp [cell, List.getD_eq_getElem?_getD, List.getElem?_set, hab]

theorem cell_append_old {h : Heap} {a : Nat} (l : Heap) (ha : a < h.length) :
    cell (h ++ l) a = cell h a := by
  simp [cell, List.getD_eq_getElem?_getD, List.getElem?_append, ha]

theorem cell_append_new (h : Heap) (c : Option DQNode) :
    cell (h ++ [c]) h.length = c := by
  simp [cell, List.getD_eq_getElem?_getD]

theorem cell_lt {h : Heap} {a : Nat} {n : DQNode} (hn : cell h a = some n) : a < h.length := by
  by_contra hlt
  have : h[a]? = none := List.getElem?_eq_none (Nat.le_of_not_lt hlt)
  simp [cell, List.getD_eq_getElem?_getD, this] at hn

theorem exceeds_false_of_le {n : Nat} {t : Int} (h : (n : Int) ≤ t) : exceeds n t = false := by
  simp only [exceeds, decide_eq_false_iff_not, not_and, not_lt]
  intro _; exact h

theorem moveFront_eq : ∀ (k : Nat) (src temp : List Process), k ≤ src.length →
    moveFront k src temp = Except.ok (src.drop k, temp ++ src.take k)
  | 0, src, temp, _ => by simp [moveFront]
  | k + 1, [], temp, h => by simp at h
  | k + 1, x :: src, temp, h => by
    have h1 : k ≤ src.length := by simpa using h
    simp [moveFront, moveFront_eq k src (temp ++ [x]) h1]

theorem cell_ge {h : Heap} {a : Nat} (ha : h.length ≤ a) : cell h a = none := by
  simp [cell, List.getD_eq_getElem?_getD, List.getElem?_eq_none ha]

theorem exceeds_true {n : Nat} {t : Int} (h0 : 0 ≤ t) (h : t < (n : Int)) : exceeds n t = true := by
  simp [exceeds, h0, h]

theorem exceeds_false_of_neg {n : Nat} {t : Int} (h : t < 0) : exceeds n t = false := by
  simp only [exceeds, decide_eq_false_iff_not, not_and, not_lt]
  intro h0; omega

namespace DynamicQueue

theorem splitStep_of_le {q : DynamicQueue} {a : Nat} {node : DQNode}
    (htop : q.top = Ptr.addr a) (hnode : cell q.heap a = some node)
    (hle : (node.processes.length : Int) ≤ q.threshold) : q.splitStep = Except.ok none := by
  simp [splitStep, htop, hnode, exceeds_false_of_le hle]

theorem split_n_merge_of_le {q : DynamicQueue} {a : Nat} {node : DQNode}
    (htop : q.top = Ptr.addr a) (hnode : cell q.heap a = some node)
    (hle : (node.processes.length : Int) ≤ q.threshold) : q.split_n_merge = Except.ok q := by
  simp [split_n_merge, splitLoop, splitStep_of_le htop hnode hle]

theorem topSize_eq {q : DynamicQueue} {a : Nat} {node : DQNode}
    (htop : q.top = Ptr.addr a) (hnode : cell q.heap a = some node) :
    q.topSize = node.processes.length := by
  simp [topSize, level, htop, hnode]

theorem split_n_merge_of_topSize_le {q : DynamicQueue} {a : Nat} {node : DQNode}
    (htop : q.top = Ptr.addr a) (hnode : cell q.heap a = some node)
    (hle : (q.topSize : Int) ≤ q.threshold) : q.split_n_merge = Except.ok q := by
  rw [topSize_eq htop hnode] at hle
  exact split_n_merge_of_le htop hnode hle

theorem level_isSome {q : DynamicQueue} {p : Ptr} (h : (q.level p).isSome) :
    ∃ a node, p = Ptr.addr a ∧ cell q.heap a = some node := by
  cases p with
  | null => simp [level] at h
  | addr a =>
    cases hc : cell q.heap a with
    | none => simp [level, hc] at h
    | some node => exact ⟨a, node, rfl, hc⟩

theorem splitStep_of_exceeds {q : DynamicQueue} {a : Nat} {node : DQNode}
    (htop : q.top = Ptr.addr a) (hnode : cell q.heap a = some node)
    (hex : exceeds node.processes.length q.threshold = true) :
    q.splitStep = Except.ok (some (q.splitAt a node)) := by
  have hk : node.processes.length / 2 ≤ node.processes.length := Nat.div_le_self _ _
  simp [splitStep, htop, hnode, hex, moveFront_eq _ _ _ hk, splitAt]

theorem splitStep_of_not_exceeds {q : DynamicQueue} {a : Nat} {node : DQNode}
    (htop : q.top = Ptr.addr a) (hnode : cell q.heap a = some node)
    (hex : exceeds node.processes.length q.threshold = false) :
    q.splitStep = Except.ok none := by
  simp [splitStep, htop, hnode, hex]

theorem exceeds_pos {n : Nat} {t : Int} (h : exceeds n t = true) : 0 < n := by
  simp only [exceeds, decide_eq_true_eq] at h
  omega

theorem cell_splitAt_new (q : DynamicQueue) (a : Nat) (node : DQNode) :
    cell (q.splitAt a node).heap q.heap.length =
      some { processes := node.processes.take (node.processes.length / 2),
             next := some (Ptr.addr a) } := by
  have := cell_append_new (q.heap.set a
    (some { node with processes := node.processes.drop (node.processes.length / 2) }))
    (some { processes := node.processes.take (node.processes.length / 2),
            next := some (Ptr.addr a) })
  simpa [splitAt] using this

theorem cell_splitAt_live {q : DynamicQueue} {a : Nat} (node : DQNode) {b : Nat}
    (hb : (cell q.heap b).isSome) : (cell (q.splitAt a node).heap b).isSome := by
  have hlt : b < q.heap.length := by
    cases hc : cell q.heap b with
    | none => simp [hc] at hb
    | some n => exact cell_lt hc
  show (cell (_ ++ _) b).isSome
  rw [cell_append_old _ (by simpa using hlt)]
  by_cases hab : a = b
  · subst hab; rw [cell_set_same _ hlt]; rfl
  · rw [cell_set_other _ hab]; exact hb

/-- With more fuel than the top level has processes, the recursion of `split_n_merge`
returns; it keeps `bottom`, keeps every live node live, and leaves `top` null exactly when it
was null. -/
theorem splitLoop_ok : ∀ (fuel : Nat) (q : DynamicQueue), q.topSize < fuel →
    Usable q.heap q.top →
    ∃ q1, splitLoop fuel q = Except.ok q1 ∧ q1.bottom = q.bottom ∧
      (q.top = Ptr.null → q1.top = Ptr.null) ∧
      (q.top ≠ Ptr.null → ∃ a node, q1.top = Ptr.addr a ∧ cell q1.heap a = some node) ∧
      (∀ b, (cell q.heap b).isSome → (cell q1.heap b).isSome)
  | 0, q, hf, _ => by omega
  | fuel + 1, q, hf, hu => by
    rcases hu with htop | ⟨a, node, htop, hnode⟩
    · refine ⟨q, by simp [splitLoop, splitStep, htop], rfl, fun _ => htop, ?_, fun b hb => hb⟩
      intro h; exact absurd htop h
    · cases hex : exceeds node.processes.length q.threshold with
      | false =>
        refine ⟨q, by simp [splitLoop, splitStep_of_not_exceeds htop hnode hex], rfl, ?_, ?_,
          fun b hb => hb⟩
        · intro h; rw [htop] at h; cases h
        · intro _; exact ⟨a, node, htop, hnode⟩
      | true =>
        have hnew := cell_splitAt_new q a node
        have hsize : (q.splitAt a node).topSize < fuel := by
          rw [topSize_eq (a := q.heap.length) rfl hnew]
          rw [topSize_eq htop hnode] at hf
          have hpos := exceeds_pos hex
          simp only [List.length_take]
          have : node.processes.length / 2 < node.processes.length :=
            Nat.div_lt_self hpos (by decide)
          omega
        obtain ⟨q1, h1, hb1, -, ht1, hl1⟩ := splitLoop_ok fuel (q.splitAt a node) hsize
          (Or.inr ⟨q.heap.length, _, rfl, hnew⟩)
        refine ⟨q1, ?_, hb1, ?_, ?_, ?_⟩
        · simp [splitLoop, splitStep_of_exceeds htop hnode hex, h1]
        · intro h; rw [htop] at h; cases h
        · intro _; exact ht1 (by simp [splitAt])
        · intro b hb; exact hl1 b (cell_splitAt_live node hb)

theorem split_n_merge_ok (q : DynamicQueue) (hu : Usable q.heap q.top) :
    ∃ q1, q.split_n_merge = Except.ok q1 ∧ q1.bottom = q.bottom ∧
      (q.top = Ptr.null → q1.top = Ptr.null) ∧
      (q.top ≠ Ptr.null → ∃ a node, q1.top = Ptr.addr a ∧ cell q1.heap a = some node) ∧
      (∀ b, (cell q.heap b).isSome → (cell q1.heap b).isSome) :=
  splitLoop_ok (q.topSize + 1) q (Nat.lt_succ_self _) hu

theorem wellAnchored_iff (q : DynamicQueue) :
    q.WellAnchored ↔ (q.top = Ptr.null ∧ q.bottom = Ptr.null) ∨
      ((∃ a node, q.top = Ptr.addr a ∧ cell q.heap a = some node) ∧
        ∃ b node, q.bottom = Ptr.addr b ∧ cell q.heap b = some node) := by
  constructor
  · rintro (h | ⟨h1, h2⟩)
    · exact Or.inl h
    · exact Or.inr ⟨level_isSome h1, level_isSome h2⟩
  · rintro (h | ⟨⟨a, n, h1, h2⟩, b, m, h3, h4⟩)
    · exact Or.inl h
    · exact Or.inr ⟨by simp [level, h1, h2], by simp [level, h3, h4]⟩

/-- On a queue whose `top` and `bottom` are both null or both live, `place` returns a queue
whose `top` and `bottom` are live. -/
theorem place_ok (q : DynamicQueue) (p : Process) (hq : q.WellAnchored) :
    ∃ q1, q.place p = Except.ok q1 ∧
      (∃ a node, q1.top = Ptr.addr a ∧ cell q1.heap a = some node) ∧
      (∃ b node, q1.bottom = Ptr.addr b ∧ cell q1.heap b = some node) := by
  rcases (wellAnchored_iff q).1 hq with ⟨htop, hbot⟩ | ⟨⟨t, tn, ht, htn⟩, b, bn, hb, hbn⟩
  · refine ⟨{ q.pushNew p with currentProcesses := q.currentProcesses + 1 }, ?_, ?_, ?_⟩
    · cases hfg : p.isForeground <;> simp [place, hfg, htop, hbot, pushNew]
    · exact ⟨q.heap.length, _, rfl, cell_append_new _ _⟩
    · exact ⟨q.heap.length, _, rfl, cell_append_new _ _⟩
  · have live : ∀ (a : Nat) (node : DQNode), cell q.heap a = some node →
        ∀ c, (cell q.heap c).isSome →
          ∃ n1, cell (q.heap.set a (some { node with processes := node.processes ++ [p] })) c
            = some n1 := by
      intro a node hnode c hc
      by_cases hac : a = c
      · subst hac; exact ⟨_, cell_set_same _ (cell_lt hnode)⟩
      · rw [cell_set_other _ hac]; exact Option.isSome_iff_exists.1 hc
    cases hfg : p.isForeground
    · refine ⟨{ q with heap := q.heap.set b (some { bn with processes := bn.processes ++ [p] }),
                       currentProcesses := q.currentProcesses + 1 }, ?_, ?_, ?_⟩
      · simp [place, hfg, hb, pushBack, hbn]
      · obtain ⟨n1, h1⟩ := live b bn hbn t (by simp [htn])
        exact ⟨t, n1, ht, h1⟩
      · obtain ⟨n1, h1⟩ := live b bn hbn b (by simp [hbn])
        exact ⟨b, n1, hb, h1⟩
    · refine ⟨{ q with heap := q.heap.set t (some { tn with processes := tn.processes ++ [p] }),
                       currentProcesses := q.currentProcesses + 1 }, ?_, ?_, ?_⟩
      · simp [place, hfg, ht, pushBack, htn]
      · obtain ⟨n1, h1⟩ := live t tn htn t (by simp [htn])
        exact ⟨t, n1, ht, h1⟩
      · obtain ⟨n1, h1⟩ := live t tn htn b (by simp [hbn])
        exact ⟨b, n1, hb, h1⟩

/-- On a queue whose `top` and `bottom` are both null or both live, `enqueue` returns, and
`top` and `bottom` of the resulting queue are live. -/
theorem enqueue_ok (q : DynamicQueue) (p : Process) (hq : q.WellAnchored) :
    ∃ q1, q.enqueue p = Except.ok q1 ∧ q1.WellAnchored := by
  obtain ⟨q2, h2, ⟨t, tn, ht, htn⟩, b, bn, hb, hbn⟩ := place_ok q p hq
  obtain ⟨q1, h1, hb1, -, ht1, hl1⟩ := split_n_merge_ok q2 (Or.inr ⟨t, tn, ht, htn⟩)
  refine ⟨q1, by simp [enqueue, h2, h1], (wellAnchored_iff q1).2 (Or.inr ⟨?_, ?_⟩)⟩
  · exact ht1 (by rw [ht]; simp)
  · obtain ⟨n1, hn1⟩ := Option.isSome_iff_exists.1 (hl1 b (by simp [hbn]))
    exact ⟨b, n1, hb1.trans hb, hn1⟩

/-- The four ways in which the body of `split_n_merge` can run. -/
theorem splitStep_cases (q : DynamicQueue) :
    (q.top = Ptr.null ∧ q.splitStep = Except.ok none) ∨
    (∃ a, q.top = Ptr.addr a ∧ cell q.heap a = none ∧
      q.splitStep = Except.error Fault.invalidAccess) ∨
    (∃ a node, q.top = Ptr.addr a ∧ cell q.heap a = some node ∧
      exceeds node.processes.length q.threshold = false ∧ q.splitStep = Except.ok none) ∨
    (∃ a node, q.top = Ptr.addr a ∧ cell q.heap a = some node ∧
      exceeds node.processes.length q.threshold = true ∧
      q.splitStep = Except.ok (some (q.splitAt a node))) := by
  cases htop : q.top with
  | null => left; exact ⟨rfl, by simp [splitStep, htop]⟩
  | addr a =>
    right
    cases hnode : cell q.heap a with
    | none => left; exact ⟨a, rfl, hnode, by simp [splitStep, htop, hnode]⟩
    | some node =>
      right
      cases hex : exceeds node.processes.length q.threshold with
      | false => left; exact ⟨a, node, rfl, hnode, hex, splitStep_of_not_exceeds htop hnode hex⟩
      | true => right; exact ⟨a, node, rfl, hnode, hex, splitStep_of_exceeds htop hnode hex⟩

theorem splitStep_none {q : DynamicQueue} (h : q.splitStep = Except.ok none) : q.TopSettled := by
  rcases splitStep_cases q with ⟨ht, -⟩ | ⟨a, -, -, h1⟩ | ⟨a, node, ht, hn, hex, -⟩ |
    ⟨a, node, -, -, -, h1⟩
  · exact Or.inl ht
  · rw [h1] at h; cases h
  · exact Or.inr ⟨a, node, ht, hn, hex⟩
  · rw [h1] at h; cases h

theorem splitStep_some {q q1 : DynamicQueue} (h : q.splitStep = Except.ok (some q1)) :
    ∃ a node, q.top = Ptr.addr a ∧ cell q.heap a = some node ∧
      exceeds node.processes.length q.threshold = true ∧ q1 = q.splitAt a node := by
  rcases splitStep_cases q with ⟨-, h1⟩ | ⟨a, -, -, h1⟩ | ⟨a, node, -, -, -, h1⟩ |
    ⟨a, node, ht, hn, hex, h1⟩
  · rw [h1] at h; cases h
  · rw [h1] at h; cases h
  · rw [h1] at h; cases h
  · rw [h1] at h
    injection h with h; injection h with h
    exact ⟨a, node, ht, hn, hex, h.symm⟩

theorem splitLoop_settled : ∀ (fuel : Nat) (q q1 : DynamicQueue),
    splitLoop fuel q = Except.ok q1 → q1.threshold = q.threshold ∧ q1.TopSettled
  | 0, q, q1, h => by simp [splitLoop] at h
  | fuel + 1, q, q1, h => by
    unfold splitLoop at h
    split at h
    · cases h
    · next hs => cases h; exact ⟨rfl, splitStep_none hs⟩
    · next q2 hs =>
      obtain ⟨ht, hset⟩ := splitLoop_settled fuel q2 q1 h
      obtain ⟨a, node, -, -, -, rfl⟩ := splitStep_some hs
      exact ⟨ht, hset⟩

theorem split_n_merge_settled {q q1 : DynamicQueue} (h : q.split_n_merge = Except.ok q1) :
    q1.threshold = q.threshold ∧ q1.TopSettled :=
  splitLoop_settled _ q q1 h

theorem pushBack_threshold {q q1 : DynamicQueue} {a : Nat} {p : Process}
    (h : q.pushBack a p = Except.ok q1) : q1.threshold = q.threshold := by
  unfold pushBack at h
  split at h
  · cases h
  · cases h; rfl

theorem place_threshold {q q1 : DynamicQueue} {p : Process} (h : q.place p = Except.ok q1) :
    q1.threshold = q.threshold := by
  have key : ∀ r : Except Fault DynamicQueue,
      (∀ q2, r = Except.ok q2 → q2.threshold = q.threshold) →
      (match r with
        | Except.error e => Except.error e
        | Except.ok q2 =>
          (Except.ok { q2 with currentProcesses := q2.currentProcesses + 1 } :
            Except Fault DynamicQueue)) = Except.ok q1 →
      q1.threshold = q.threshold := by
    intro r hr hm
    cases r with
    | error e => cases hm
    | ok q2 => cases hm; exact hr q2 rfl
  refine key _ ?_ h
  intro q2 hq2
  split at hq2
  · split at hq2
    · cases hq2; rfl
    · exact pushBack_threshold hq2
  · split at hq2
    · cases hq2; rfl
    · exact pushBack_threshold hq2

theorem enqueue_settled {q q1 : DynamicQueue} {p : Process} (h : q.enqueue p = Except.ok q1) :
    q1.threshold = q.threshold ∧ q1.TopSettled := by
  unfold enqueue at h
  split at h
  · cases h
  · next q2 hq2 =>
    obtain ⟨ht, hs⟩ := split_n_merge_settled h
    exact ⟨ht.trans (place_threshold hq2), hs⟩

theorem promoteLoop_threshold : ∀ (fuel : Nat) (q : DynamicQueue) (p : Ptr) (q1 : DynamicQueue),
    promoteLoop fuel q p = Except.ok q1 → q1.threshold = q.threshold
  | 0, q, p, q1, h => by simp [promoteLoop] at h
  | fuel + 1, q, p, q1, h => by
    unfold promoteLoop at h
    split at h
    · cases h; rfl
    · split at h
      · cases h
      · split at h
        · cases h
        · split at h
          · split at h
            · cases h
            · exact promoteLoop_threshold fuel _ _ _ h
          · split at h
            · cases h
            · split at h
              · cases h
              · simp only [] at h
                split at h
                · cases h
                · split at h
                  · have := promoteLoop_threshold fuel _ _ _ h
                    exact this
                  · have := promoteLoop_threshold fuel _ _ _ h
                    exact this

theorem promote_settled {q q1 : DynamicQueue} (h : q.promote = Except.ok q1) :
    q1.threshold = q.threshold ∧ q1.TopSettled := by
  unfold promote at h
  split at h
  · cases h
  · next q2 hq2 =>
    obtain ⟨ht, hs⟩ := split_n_merge_settled h
    exact ⟨ht.trans (promoteLoop_threshold _ _ _ _ hq2), hs⟩

theorem take_threshold {q q1 : DynamicQueue} {p : Process} (h : q.take = Except.ok (p, q1)) :
    q1.threshold = q.threshold := by
  unfold take at h
  split at h
  · cases h
  · split at h
    · cases h
    · split at h
      · cases h
      · split at h
        · split at h
          · cases h
          · cases h; rfl
        · cases h; rfl

theorem dequeue_settled {q q1 : DynamicQueue} {p : Process}
    (h : q.dequeue = Except.ok (p, q1)) : q1.threshold = q.threshold ∧ q1.TopSettled := by
  unfold dequeue at h
  split at h
  · cases h
  · next p2 q2 hq2 =>
    split at h
    · cases h
    · next q3 hq3 =>
      cases h
      obtain ⟨ht, hs⟩ := promote_settled hq3
      exact ⟨ht.trans (take_threshold hq2), hs⟩

theorem reachable_settled {capacity : Int} {q : DynamicQueue} (hr : Reachable capacity q) :
    q.threshold = Int.tdiv capacity 3 ∧ q.TopSettled := by
  induction hr with
  | init => exact ⟨rfl, Or.inl rfl⟩
  | enqueue p _ h ih => exact ⟨(enqueue_settled h).1.trans ih.1, (enqueue_settled h).2⟩
  | dequeue p _ h ih => exact ⟨(dequeue_settled h).1.trans ih.1, (dequeue_settled h).2⟩
  | promote _ h ih => exact ⟨(promote_settled h).1.trans ih.1, (promote_settled h).2⟩

theorem reachable_enqueueAll {capacity : Int} : ∀ (ps : List Process) (q q1 : DynamicQueue),
    Reachable capacity q → q.enqueueAll ps = Except.ok q1 → Reachable capacity q1
  | [], q, q1, hr, h => by
    simp only [enqueueAll] at h
    cases h; exact hr
  | p :: ps, q, q1, hr, h => by
    simp only [enqueueAll] at h
    split at h
    · cases h
    · next q2 hq2 => exact reachable_enqueueAll ps q2 q1 (Reachable.enqueue p hr hq2) h

theorem reachable_twoLevels : Reachable 3 twoLevels :=
  reachable_enqueueAll [fgProc 1, fgProc 2] _ _ Reachable.init (by decide)

theorem reachable_threeBackground : Reachable 3 threeBackground :=
  reachable_enqueueAll [bgProc 1, bgProc 2, bgProc 3] _ _ Reachable.init (by decide)

theorem Chain.top_live {h : Heap} {t b : Nat} {l : List Nat} (c : Chain h t b l) :
    ∃ node, cell h t = some node := by
  cases c with
  | single hn _ => exact ⟨_, hn⟩
  | link hn _ _ _ => exact ⟨_, hn⟩

theorem Chain.bottom_last {h : Heap} {t b : Nat} {l : List Nat} (c : Chain h t b l) :
    ∃ node, cell h b = some node ∧ node.next = none := by
  induction c with
  | single hn hx => exact ⟨_, hn, hx⟩
  | link _ _ _ _ ih => exact ih

theorem Chain.head_mem {h : Heap} {t b : Nat} {l : List Nat} (c : Chain h t b l) : t ∈ l := by
  cases c with
  | single _ _ => exact List.mem_singleton.2 rfl
  | link _ _ _ _ => exact List.mem_cons_self _ _

theorem Chain.lt_length {h : Heap} {t b : Nat} {l : List Nat} (c : Chain h t b l) :
    ∀ a ∈ l, a < h.length := by
  induction c with
  | single hn _ =>
    intro a ha
    rw [List.mem_singleton.1 ha]; exact cell_lt hn
  | link hn _ _ _ ih =>
    intro a ha
    rcases List.mem_cons.1 ha with rfl | ha
    · exact cell_lt hn
    · exact ih a ha

/-- A chain survives a change of the processes of one node. -/
theorem Chain.set_processes {h : Heap} {t b : Nat} {l : List Nat} (c : Chain h t b l)
    {a : Nat} {node : DQNode} (hnode : cell h a = some node) (ps : List Process) :
    Chain (h.set a (some { node with processes := ps })) t b l := by
  have ha := cell_lt hnode
  induction c with
  | @single b1 n1 hn hx =>
    by_cases hab : a = b1
    · subst hab
      rw [hnode] at hn; injection hn with hn; subst hn
      exact Chain.single (cell_set_same _ ha) hx
    · exact Chain.single (by rw [cell_set_other _ hab]; exact hn) hx
  | @link a0 a1 b1 l1 n1 hn hx hnot _ ih =>
    by_cases hab : a = a0
    · subst hab
      rw [hnode] at hn; injection hn with hn; subst hn
      exact Chain.link (cell_set_same _ ha) hx hnot ih
    · exact Chain.link (by rw [cell_set_other _ hab]; exact hn) hx hnot ih

/-- A chain survives the allocation of a node. -/
theorem Chain.append {h : Heap} {t b : Nat} {l : List Nat} (c : Chain h t b l)
    (x : Option DQNode) : Chain (h ++ [x]) t b l := by
  induction c with
  | single hn hx => exact Chain.single (by rw [cell_append_old _ (cell_lt hn)]; exact hn) hx
  | link hn hx hnot _ ih =>
    exact Chain.link (by rw [cell_append_old _ (cell_lt hn)]; exact hn) hx hnot ih

/-- A chain survives the deletion of a node that is not part of it. -/
theorem Chain.delete {h : Heap} {t b : Nat} {l : List Nat} (c : Chain h t b l)
    {a : Nat} (ha : a ∉ l) : Chain (h.set a none) t b l := by
  induction c with
  | @single b1 n1 hn hx =>
    have hab : a ≠ b1 := fun e => ha (by rw [e]; exact List.mem_singleton.2 rfl)
    exact Chain.single (by rw [cell_set_other _ hab]; exact hn) hx
  | @link a0 a1 b1 l1 n1 hn hx hnot _ ih =>
    have hab : a ≠ a0 := fun e => ha (by rw [e]; exact List.mem_cons_self _ _)
    have hal : a ∉ l1 := fun e => ha (List.mem_cons_of_mem _ e)
    exact Chain.link (by rw [cell_set_other _ hab]; exact hn) hx hnot (ih hal)

theorem Shaped.wellAnchored {q : DynamicQueue} (h : q.Shaped) : q.WellAnchored := by
  rcases h with h | ⟨t, b, l, ht, hb, c⟩
  · exact Or.inl h
  · obtain ⟨n1, h1⟩ := c.top_live
    obtain ⟨n2, h2, -⟩ := c.bottom_last
    exact Or.inr ⟨by simp [level, ht, h1], by simp [level, hb, h2]⟩

theorem shaped_splitAt {q : DynamicQueue} {a : Nat} {node : DQNode}
    (hs : q.Shaped) (htop : q.top = Ptr.addr a) (hnode : cell q.heap a = some node) :
    (q.splitAt a node).Shaped := by
  rcases hs with ⟨h, -⟩ | ⟨t, b, l, ht, hb, c⟩
  · rw [htop] at h; cases h
  · have hta : t = a := by
      rw [htop] at ht; injection ht with ht; exact ht.symm
    subst hta
    refine Or.inr ⟨q.heap.length, b, q.heap.length :: l, rfl, hb, ?_⟩
    have c1 := (c.set_processes hnode
      (node.processes.drop (node.processes.length / 2))).append
      (some { processes := node.processes.take (node.processes.length / 2),
              next := some (Ptr.addr t) })
    refine Chain.link (cell_splitAt_new q t node) rfl ?_ c1
    intro hmem
    exact Nat.lt_irrefl _ (c.lt_length _ hmem)

theorem shaped_splitLoop : ∀ (fuel : Nat) (q q1 : DynamicQueue), q.Shaped →
    splitLoop fuel q = Except.ok q1 → q1.Shaped
  | 0, q, q1, _, h => by simp [splitLoop] at h
  | fuel + 1, q, q1, hs, h => by
    unfold splitLoop at h
    split at h
    · cases h
    · cases h; exact hs
    · next q2 hq2 =>
      obtain ⟨a, node, htop, hnode, -, rfl⟩ := splitStep_some hq2
      exact shaped_splitLoop fuel _ q1 (shaped_splitAt hs htop hnode) h

theorem shaped_pushNew {q : DynamicQueue} (p : Process) : (q.pushNew p).Shaped :=
  Or.inr ⟨q.heap.length, q.heap.length, [q.heap.length], rfl, rfl,
    Chain.single (cell_append_new _ _) rfl⟩

theorem shaped_pushBack {q q1 : DynamicQueue} {a : Nat} {p : Process} (hs : q.Shaped)
    (h : q.pushBack a p = Except.ok q1) : q1.Shaped := by
  unfold pushBack at h
  split at h
  · cases h
  · next node hnode =>
    cases h
    rcases hs with h0 | ⟨t, b, l, ht, hb, c⟩
    · exact Or.inl h0
    · exact Or.inr ⟨t, b, l, ht, hb, c.set_processes hnode _⟩

theorem shaped_place {q q1 : DynamicQueue} {p : Process} (hs : q.Shaped)
    (h : q.place p = Except.ok q1) : q1.Shaped := by
  have key : ∀ r : Except Fault DynamicQueue,
      (∀ q2, r = Except.ok q2 → q2.Shaped) →
      (match r with
        | Except.error e => Except.error e
        | Except.ok q2 =>
          (Except.ok { q2 with currentProcesses := q2.currentProcesses + 1 } :
            Except Fault DynamicQueue)) = Except.ok q1 →
      q1.Shaped := by
    intro r hr hm
    cases r with
    | error e => cases hm
    | ok q2 => cases hm; exact hr q2 rfl
  refine key _ ?_ h
  intro q2 hq2
  split at hq2
  · split at hq2
    · cases hq2; exact shaped_pushNew p
    · exact shaped_pushBack hs hq2
  · split at hq2
    · cases hq2; exact shaped_pushNew p
    · exact shaped_pushBack hs hq2

theorem shaped_enqueue {q q1 : DynamicQueue} {p : Process} (hs : q.Shaped)
    (h : q.enqueue p = Except.ok q1) : q1.Shaped := by
  unfold enqueue at h
  split at h
  · cases h
  · next q2 hq2 => exact shaped_splitLoop _ q2 q1 (shaped_place hs hq2) h

/-- On a chain, the walk of `promote` returns only when `bottom` and `top` coincide, and then
it changes nothing. -/
theorem shaped_promoteWalk {q q1 : DynamicQueue} (hs : q.Shaped)
    (h : q.promoteWalk = Except.ok q1) : q1 = q := by
  unfold promoteWalk at h
  generalize (q.heap.length + 1) * (stored q.heap + 1) = fuel at h
  cases fuel with
  | zero => simp [promoteLoop] at h
  | succ fuel =>
    unfold promoteLoop at h
    split at h
    · cases h; rfl
    · next hne =>
      exfalso
      rcases hs with ⟨ht, hb⟩ | ⟨t, b, l, ht, hb, c⟩
      · exact hne (hb.trans ht.symm)
      · obtain ⟨nb, hnb, hnext⟩ := c.bottom_last
        simp only [hb, hnb, hnext] at h
        split at h
        · cases h
        · split at h
          · cases h
          · split at h
            · cases h
            · cases h

theorem shaped_promote {q q1 : DynamicQueue} (hs : q.Shaped)
    (h : q.promote = Except.ok q1) : q1.Shaped := by
  unfold promote at h
  split at h
  · cases h
  · next q2 hq2 =>
    have := shaped_promoteWalk hs hq2
    subst this
    exact shaped_splitLoop _ _ q1 hs h

theorem shaped_take {q q1 : DynamicQueue} {p : Process} (hs : q.Shaped)
    (h : q.take = Except.ok (p, q1)) : q1.Shaped := by
  rcases hs with ⟨ht, -⟩ | ⟨t, b, l, ht, hb, c⟩
  · simp [take, ht] at h
  · unfold take at h
    simp only [ht] at h
    cases c with
    | @single _ node hn hx =>
      simp only [hn, hx] at h
      split at h
      · cases h
      · split at h
        · cases h
        · cases h
          refine Or.inr ⟨t, t, [t], rfl, hb, ?_⟩
          have c2 := (Chain.single hn hx).set_processes hn (by assumption)
          rw [hx] at c2
          exact c2
    | @link _ a1 _ l1 node hn hx hnot c1 =>
      simp only [hn, hx] at h
      split at h
      · cases h
      · split at h
        · cases h
          exact Or.inr ⟨a1, b, l1, rfl, hb, c1.delete hnot⟩
        · cases h
          refine Or.inr ⟨t, b, t :: l1, rfl, hb, ?_⟩
          have c2 := (Chain.link hn hx hnot c1).set_processes hn (by assumption)
          rw [hx] at c2
          exact c2

theorem shaped_dequeue {q q1 : DynamicQueue} {p : Process} (hs : q.Shaped)
    (h : q.dequeue = Except.ok (p, q1)) : q1.Shaped := by
  unfold dequeue at h
  split at h
  · cases h
  · next p2 q2 hq2 =>
    split at h
    · cases h
    · next q3 hq3 =>
      cases h
      exact shaped_promote (shaped_take hs hq2) hq3

/-- Every queue state reached through `enqueue`, `dequeue` and `promote` has no level, or its
levels form a chain from `top` to `bottom`. -/
theorem reachable_shaped {capacity : Int} {q : DynamicQueue} (hr : Reachable capacity q) :
    q.Shaped := by
  induction hr with
  | init => exact Or.inl ⟨rfl, rfl⟩
  | enqueue p _ h ih => exact shaped_enqueue ih h
  | dequeue p _ h ih => exact shaped_dequeue ih h
  | promote _ h ih => exact shaped_promote ih h

theorem reachable_wellAnchored {capacity : Int} {q : DynamicQueue}
    (hr : Reachable capacity q) : q.WellAnchored :=
  (reachable_shaped hr).wellAnchored

end DynamicQueue

/-! ## Lemmas on the lock statements -/

theorem acquire_held {m : Mutex} {held : List Mutex} (h : m ∈ held) :
    acquire m held = Except.error Fault.relock := by
  simp [acquire, h]

theorem acquire_free {m : Mutex} {held : List Mutex} (h : m ∉ held) :
    acquire m held = Except.ok (m :: held) := by
  simp [acquire, h]

theorem acquire_ok {m : Mutex} {held held1 : List Mutex}
    (h : acquire m held = Except.ok held1) : m ∉ held ∧ held1 = m :: held := by
  unfold acquire at h
  split at h
  · cases h
  · next hm => cases h; exact ⟨hm, rfl⟩

namespace Locks

/-- A call of `split_n_merge` by a thread that holds the mutex of the queue does not return. -/
theorem split_n_merge_held (held : List Mutex) (q : DynamicQueue) (h : Mutex.queue ∈ held) :
    split_n_merge held q = Except.error Fault.relock := by
  simp [split_n_merge, splitLoop, acquire_held h]

theorem splitLoop_held (fuel : Nat) (held : List Mutex) (q : DynamicQueue)
    (h : Mutex.queue ∈ held) (hf : 0 < fuel) :
    splitLoop fuel held q = Except.error Fault.relock := by
  cases fuel with
  | zero => omega
  | succ n => simp [splitLoop, acquire_held h]

/-- As written, a call of `split_n_merge` returns only when it does not split, and then it
returns the queue unchanged. -/
theorem split_n_merge_unchanged {held : List Mutex} {q q1 : DynamicQueue}
    (h : split_n_merge held q = Except.ok q1) :
    q1 = q ∧ q.splitStep = Except.ok none ∧ Mutex.queue ∉ held := by
  unfold split_n_merge splitLoop at h
  cases ha : acquire Mutex.queue held with
  | error e => simp [ha] at h
  | ok held1 =>
    obtain ⟨hm, rfl⟩ := acquire_ok ha
    simp only [ha] at h
    rcases DynamicQueue.splitStep_cases q with ⟨-, hs⟩ | ⟨a, -, -, hs⟩ | ⟨a, node, -, -, -, hs⟩ |
      ⟨a, node, htop, hnode, hex, hs⟩
    · simp only [hs] at h; cases h; exact ⟨rfl, hs, hm⟩
    · simp [hs] at h
    · simp only [hs] at h; cases h; exact ⟨rfl, hs, hm⟩
    · simp only [hs] at h
      have hpos : 0 < q.topSize := by
        rw [DynamicQueue.topSize_eq htop hnode]; exact DynamicQueue.exceeds_pos hex
      rw [splitLoop_held _ _ _ (List.mem_cons_self _ _) hpos] at h
      cases h

/-- As written, a call of `split_n_merge` by a thread that does not hold the mutex of the
queue returns the queue unchanged when the condition of line 105 is false. -/
theorem split_n_merge_of_none {held : List Mutex} {q : DynamicQueue}
    (hm : Mutex.queue ∉ held) (hs : q.splitStep = Except.ok none) :
    split_n_merge held q = Except.ok q := by
  simp [split_n_merge, splitLoop, acquire_free hm, hs]

/-- As written, a call of `split_n_merge` that has to split does not return: the nested call
of line 116 locks the mutex that the guard of line 104 holds. -/
theorem split_n_merge_of_some {held : List Mutex} {q q1 : DynamicQueue}
    (hs : q.splitStep = Except.ok (some q1)) :
    split_n_merge held q = Except.error Fault.relock := by
  obtain ⟨a, node, htop, hnode, hex, rfl⟩ := DynamicQueue.splitStep_some hs
  have hpos : 0 < q.topSize := by
    rw [DynamicQueue.topSize_eq htop hnode]; exact DynamicQueue.exceeds_pos hex
  by_cases hm : Mutex.queue ∈ held
  · exact split_n_merge_held held q hm
  · unfold split_n_merge splitLoop
    simp only [acquire_free hm, hs]
    exact splitLoop_held _ _ _ (List.mem_cons_self _ _) hpos

/-- As written, no call of `enqueue` returns. -/
theorem enqueue_ne_ok (held : List Mutex) (q : DynamicQueue) (p : Process) (r : DynamicQueue) :
    enqueue held q p ≠ Except.ok r := by
  unfold enqueue
  cases ha : acquire Mutex.queue held with
  | error e => simp
  | ok held1 =>
    obtain ⟨-, rfl⟩ := acquire_ok ha
    cases hp : q.place p with
    | error e => simp
    | ok q1 => simp [split_n_merge_held _ _ (List.mem_cons_self _ _)]

/-- As written, no call of `promote` returns. -/
theorem promote_ne_ok (held : List Mutex) (q : DynamicQueue) (r : DynamicQueue) :
    promote held q ≠ Except.ok r := by
  unfold promote
  cases ha : acquire Mutex.queue held with
  | error e => simp
  | ok held1 =>
    obtain ⟨-, rfl⟩ := acquire_ok ha
    cases hp : q.promoteWalk with
    | error e => simp
    | ok q1 => simp [split_n_merge_held _ _ (List.mem_cons_self _ _)]

/-- As written, no call of `dequeue` returns. -/
theorem dequeue_ne_ok (held : List Mutex) (q : DynamicQueue) (r : Process × DynamicQueue) :
    dequeue held q ≠ Except.ok r := by
  unfold dequeue
  cases ha : acquire Mutex.queue held with
  | error e => simp
  | ok held1 =>
    cases hp : q.take with
    | error e => simp
    | ok r1 =>
      obtain ⟨p, q1⟩ := r1
      simp only
      cases hq : promote held1 q1 with
      | error e => simp
      | ok q2 => exact absurd hq (promote_ne_ok _ _ _)

/-- As written, no call of `createProcess` returns. -/
theorem createProcess_ne_ok (held : List Mutex) (pm : ProcessManager) (fg : Bool) (d : Int)
    (r : ProcessManager) : createProcess held pm fg d ≠ Except.ok r := by
  unfold createProcess
  cases ha : acquire Mutex.manager held with
  | error e => simp
  | ok held1 =>
    cases he : enqueue held1 pm.dq (pm.makeProcess fg d) with
    | error e => simp [he]
    | ok q2 => exact absurd he (enqueue_ne_ok _ _ _ _)

theorem wakeLoop_unchanged {held : List Mutex} {now : Int} {wq wq1 : List Process}
    {dq dq1 : DynamicQueue} (h : wakeLoop held now wq dq = Except.ok (wq1, dq1)) :
    wq1 = wq ∧ dq1 = dq ∧ ∀ p, wq.head? = some p → now < p.wakeupTime := by
  cases wq with
  | nil =>
    simp only [wakeLoop] at h
    cases h
    exact ⟨rfl, rfl, by simp⟩
  | cons p rest =>
    by_cases hd : p.wakeupTime ≤ now
    · simp only [wakeLoop, hd, if_true] at h
      cases he : enqueue held dq p with
      | error e => simp [he] at h
      | ok dq2 => exact absurd he (enqueue_ne_ok _ _ _ _)
    · simp only [wakeLoop, hd, if_false] at h
      cases h
      refine ⟨rfl, rfl, ?_⟩
      intro p1 hp1
      simp at hp1
      subst hp1
      omega

/-- As written, a call of `wakeUpProcesses` returns only when the first waiting process, if
any, is not due, and then it returns the state unchanged. -/
theorem wakeUpProcesses_unchanged {held : List Mutex} {pm pm1 : ProcessManager}
    (h : wakeUpProcesses held pm = Except.ok pm1) :
    pm1 = pm ∧ (∀ p, pm.waitQueue.head? = some p → pm.currentTime < p.wakeupTime) ∧
      Mutex.manager ∉ held := by
  unfold wakeUpProcesses at h
  cases ha : acquire Mutex.manager held with
  | error e => simp [ha] at h
  | ok held1 =>
    obtain ⟨hm, rfl⟩ := acquire_ok ha
    simp only [ha] at h
    cases hw : wakeLoop (Mutex.manager :: held) pm.currentTime pm.waitQueue pm.dq with
    | error e => simp [hw] at h
    | ok r =>
      obtain ⟨wq, dq1⟩ := r
      simp only [hw] at h
      obtain ⟨h1, h2, h3⟩ := wakeLoop_unchanged hw
      subst h1; subst h2
      cases h
      exact ⟨rfl, h3, hm⟩

/-- As written, an iteration of the loop of `runProcesses` returns only when it leaves the
loop. -/
theorem runStep_leaves {held : List Mutex} {pm : ProcessManager}
    {r : Option (Process × ProcessManager)} (h : runStep held pm = Except.ok r) :
    r = none ∧ pm.dq.getCurrentProcesses = 0 ∧ pm.waitQueue = [] := by
  unfold runStep at h
  cases ha : acquire Mutex.manager held with
  | error e => simp [ha] at h
  | ok held1 =>
    simp only [ha] at h
    split at h
    · next hc => cases h; exact ⟨rfl, hc.1, hc.2⟩
    · cases hd : dequeue held1 pm.dq with
      | error e => simp [hd] at h
      | ok r1 => exact absurd hd (dequeue_ne_ok _ _ _)

/-- A call of `split_n_merge` as written that returns is a returning call of the body without
its lock statements, with the same result. -/
theorem split_n_merge_refines {held : List Mutex} {q q1 : DynamicQueue}
    (h : split_n_merge held q = Except.ok q1) : q.split_n_merge = Except.ok q1 := by
  obtain ⟨rfl, hs, -⟩ := split_n_merge_unchanged h
  simp [DynamicQueue.split_n_merge, DynamicQueue.splitLoop, hs]

/-- A call of `wakeUpProcesses` as written that returns is a returning call of the body without
its lock statements, with the same result. -/
theorem wakeUpProcesses_refines {held : List Mutex} {pm pm1 : ProcessManager}
    (h : wakeUpProcesses held pm = Except.ok pm1) : pm.wakeUpProcesses = Except.ok pm1 := by
  obtain ⟨rfl, hh, -⟩ := wakeUpProcesses_unchanged h
  unfold ProcessManager.wakeUpProcesses
  cases hwq : pm1.waitQueue with
  | nil => simp [ProcessManager.wakeLoop, ← hwq]
  | cons p rest =>
    have := hh p (by simp [hwq])
    have hd : ¬ p.wakeupTime ≤ pm1.currentTime := by omega
    simp [ProcessManager.wakeLoop, hd, ← hwq]

/-- An iteration of the loop of `runProcesses` as written that returns is a returning iteration
of the body without its lock statements, with the same result. -/
theorem runStep_refines {held : List Mutex} {pm : ProcessManager}
    {r : Option (Process × ProcessManager)} (h : runStep held pm = Except.ok r) :
    pm.runStep = Except.ok r := by
  obtain ⟨rfl, h1, h2⟩ := runStep_leaves h
  simp [ProcessManager.runStep, h1, h2]

end Locks

/-! ## C1: `enqueue` without a split -/

namespace Locks

/-- C1 (evaluation at the failing input). On a fresh queue of capacity 10 (threshold 3), lines
45-61 of `enqueue (bgProc 1)` create one level that holds exactly the process and is both `top`
and `bottom`; the top level then holds one process, so no split is triggered.  Called by a
thread that holds no mutex, `enqueue` nevertheless does not return: with the guard of line 44
in scope it calls `split_n_merge` at line 63, whose first statement locks the same mutex.  No
call of `enqueue` returns, whatever the mutexes held, the queue and the process. -/
theorem enqueue_appends_then_relocks :
    (DynamicQueue.new 10).place (bgProc 1) = Except.ok placedTen ∧
    placedTen.level placedTen.top = some [bgProc 1] ∧
    placedTen.bottom = placedTen.top ∧
    (placedTen.topSize : Int) ≤ placedTen.threshold ∧
    enqueue [] (DynamicQueue.new 10) (bgProc 1) = Except.error Fault.relock ∧
    (∀ (held : List Mutex) (q : DynamicQueue) (p : Process) (r : DynamicQueue),
      enqueue held q p ≠ Except.ok r) := by
  refine ⟨by decide, by decide, by decide, by decide, by decide, ?_⟩
  intro held q p r
  exact enqueue_ne_ok held q p r

end Locks

/-! ## C2: `dequeue` on a non-empty top level -/

namespace DynamicQueue

/-- C2 (evaluation at the failing input). On a fresh queue of capacity 9, `enqueue (fgProc 1)`
returns the state `oneProcess`, whose top level is the non-empty list `[fgProc 1]`.  The call
of `dequeue` in that state does not return the front process: after the front process has been
popped the top level is empty and line 75 reads the member `next` of the top node, which no
statement has ever assigned. -/
theorem dequeue_single_process_faults :
    (DynamicQueue.new 9).enqueue (fgProc 1) = Except.ok oneProcess ∧
    oneProcess.level oneProcess.top = some [fgProc 1] ∧
    oneProcess.dequeue = Except.error Fault.indeterminateRead := by
  decide

end DynamicQueue

/-! ## C3: one split step -/

namespace DynamicQueue

/-- C3 (as stated, refuted). On a fresh queue of capacity -3 (threshold -1), lines 45-61 of
`enqueue (fgProc 1)` lead to the state `placedNegative`, whose top level holds one process:
more than the threshold.  The body of `split_n_merge` does not split it: the comparison of
line 105 is made in `size_t`, where the converted threshold is larger than any list size.
Called by a thread that holds no mutex, `split_n_merge` returns the queue unchanged. -/
theorem split_skipped_for_negative_threshold :
    (DynamicQueue.new (-3)).place (fgProc 1) = Except.ok placedNegative ∧
    placedNegative.level placedNegative.top = some [fgProc 1] ∧
    placedNegative.threshold < 1 ∧
    placedNegative.splitStep = Except.ok none ∧
    Locks.split_n_merge [] placedNegative = Except.ok placedNegative := by
  decide

/-- C3 (amended). Let the top level be the live node `node` at address `a`, holding `n`
processes.  If the threshold is not negative and `n` is greater than the threshold, the body
of `split_n_merge` (lines 105-115) creates a node at a previously unused address; the new node
holds the first `n / 2` processes of the old top level in their order, it is the new `top`,
and its `next` is `a`; the old top node keeps the remaining processes in their order; `bottom`
and every other cell of the free store are unchanged.  If `n` is at most the threshold, or the
threshold is negative, the body does nothing, and `split_n_merge` as written, called by a
thread that does not hold the mutex of the queue, returns the queue unchanged. -/
theorem split_step_halves (q : DynamicQueue) (a : Nat) (node : DQNode)
    (htop : q.top = Ptr.addr a) (hnode : cell q.heap a = some node) :
    (0 ≤ q.threshold → q.threshold < (node.processes.length : Int) →
      ∃ q1, q.splitStep = Except.ok (some q1) ∧
        q1.top = Ptr.addr q.heap.length ∧ q1.bottom = q.bottom ∧
        cell q.heap q.heap.length = none ∧
        cell q1.heap q.heap.length =
          some { processes := node.processes.take (node.processes.length / 2),
                 next := some (Ptr.addr a) } ∧
        cell q1.heap a =
          some { node with processes := node.processes.drop (node.processes.length / 2) } ∧
        (∀ b, b ≠ a → b ≠ q.heap.length → cell q1.heap b = cell q.heap b)) ∧
    ((node.processes.length : Int) ≤ q.threshold ∨ q.threshold < 0 →
      q.splitStep = Except.ok none ∧
      ∀ held : List Mutex, Mutex.queue ∉ held → Locks.split_n_merge held q = Except.ok q) := by
  have ha := cell_lt hnode
  constructor
  · intro h0 hlt
    refine ⟨q.splitAt a node, splitStep_of_exceeds htop hnode (exceeds_true h0 hlt), rfl, rfl,
      cell_ge (Nat.le_refl _), cell_splitAt_new q a node, ?_, ?_⟩
    · show cell (_ ++ _) a = _
      rw [cell_append_old _ (by simpa using ha)]
      exact cell_set_same _ ha
    · intro b hba hbl
      show cell (_ ++ _) b = _
      by_cases hb : b < q.heap.length
      · rw [cell_append_old _ (by simpa using hb)]
        exact cell_set_other _ (Ne.symm hba)
      · rw [cell_ge (h := q.heap) (by omega), cell_ge (by simp; omega)]
  · intro hle
    have hex : exceeds node.processes.length q.threshold = false := by
      rcases hle with h | h
      · exact exceeds_false_of_le h
      · exact exceeds_false_of_neg h
    have hs := splitStep_of_not_exceeds htop hnode hex
    exact ⟨hs, fun held hm => Locks.split_n_merge_of_none hm hs⟩

theorem split_step_halves_witness :
    (∃ q1, fourInTop.splitStep = Except.ok (some q1) ∧ q1.top = Ptr.addr 1 ∧
      cell q1.heap 1 = some { processes := [fgProc 1, fgProc 2], next := some (Ptr.addr 0) } ∧
      cell q1.heap 0 = some { processes := [fgProc 3, fgProc 4], next := none }) ∧
    Locks.split_n_merge [] twoInTop = Except.ok twoInTop ∧
    Locks.split_n_merge [] placedNegative = Except.ok placedNegative := by
  obtain ⟨q1, h, ht, -, -, hnew, hold, -⟩ :=
    (split_step_halves fourInTop 0
      { processes := [fgProc 1, fgProc 2, fgProc 3, fgProc 4], next := none } rfl rfl).1
      (by decide) (by decide)
  exact ⟨⟨q1, h, ht, hnew, hold⟩,
    ((split_step_halves twoInTop 0 { processes := [fgProc 1, fgProc 2], next := none }
      rfl rfl).2 (Or.inl (by decide))).2 [] (by simp),
    ((split_step_halves placedNegative 0 { processes := [fgProc 1], next := none }
      rfl rfl).2 (Or.inr (by decide))).2 [] (by simp)⟩

end DynamicQueue

/-! ## C4: the split threshold -/

namespace DynamicQueue

/-- C4 (evaluation at the failing input). On a fresh queue of capacity 3 (threshold 1), with
the lock statements left out, `enqueue` of the background processes 1, 2, 3 returns the state
`threeBackground`: the top level holds process 1 and the bottom level holds the two processes
2 and 3, more than the threshold.  `split_n_merge` only tests the top level (line 105), while
background processes are appended to the bottom level (line 59).  As written, already the
first of these calls does not return, so its rebalance is never carried out. -/
theorem bottom_level_exceeds_threshold :
    (DynamicQueue.new 3).enqueueAll [bgProc 1, bgProc 2, bgProc 3] = Except.ok threeBackground ∧
    threeBackground.threshold = 1 ∧
    threeBackground.level threeBackground.top = some [bgProc 1] ∧
    threeBackground.level threeBackground.bottom = some [bgProc 2, bgProc 3] ∧
    Locks.enqueue [] (DynamicQueue.new 3) (bgProc 1) = Except.error Fault.relock := by
  decide

end DynamicQueue

/-! ## C5: order of dequeued processes -/

namespace DynamicQueue

/-- C5 (evaluation at the failing input). On a fresh queue of capacity 3, `enqueue` of the
foreground processes 1, 2, 3 returns the state `threeForeground`, whose levels from `top`
down to `bottom` hold process 1, process 3 and process 2: process 3 is ahead of process 2.
The first `dequeue` in that state does not return: after the emptied top node has been
unlinked, the walk of `promote` empties the bottom node and reads its member `next`, which no
statement has ever assigned. -/
theorem foreground_order_not_kept :
    (DynamicQueue.new 3).enqueueAll [fgProc 1, fgProc 2, fgProc 3] =
      Except.ok threeForeground ∧
    threeForeground.level threeForeground.top = some [fgProc 1] ∧
    threeForeground.level (Ptr.addr 1) = some [fgProc 3] ∧
    threeForeground.level threeForeground.bottom = some [fgProc 2] ∧
    threeForeground.dequeue = Except.error Fault.indeterminateRead := by
  decide

end DynamicQueue

/-! ## C6: the promotion walk -/

namespace DynamicQueue

/-- C6 (evaluation at the failing input). On a fresh queue of capacity 3, `enqueue` of the
foreground processes 1 and 2 returns the two-level state `twoLevels`.  The call of `promote`
in that state does not return: the walk starts at `bottom`, moves its front process to the top
level, and then reads the member `next` of the bottom node, which no statement has ever
assigned. -/
theorem promote_two_levels_faults :
    (DynamicQueue.new 3).enqueueAll [fgProc 1, fgProc 2] = Except.ok twoLevels ∧
    twoLevels.bottom ≠ twoLevels.top ∧
    twoLevels.promote = Except.error Fault.indeterminateRead := by
  decide

end DynamicQueue

/-! ## C7: the process built by `createProcess` -/

namespace ProcessManager

/-- C7 (evaluation at the failing input). On a fresh manager of capacity 10,
`createProcess(true, 5)` builds and enqueues a process whose `remainingTime` is 1 (the class
flag), whose `wakeupTime` is 5 (the duration), whose `isForeground` is false and whose
`isPromoted` is true. -/
theorem createProcess_scrambles_fields :
    (ProcessManager.new 10).makeProcess true 5 =
      { pid := 0, remainingTime := 1, wakeupTime := 5, isForeground := false,
        isPromoted := true } ∧
    ((ProcessManager.new 10).createProcess true 5).map
        (fun pm => pm.dq.level pm.dq.bottom) =
      Except.ok (some [
        { pid := 0, remainingTime := 1, wakeupTime := 5, isForeground := false,
          isPromoted := true }]) := by
  decide

end ProcessManager

/-! ## Lemmas on the wait queue -/

/-- In a list sorted by `wakeupTime`, the processes due at time `now` are a prefix. -/
theorem takeWhile_due_eq_filter (now : Int) : ∀ (l : List Process), WakeSorted l →
    l.takeWhile (fun p => decide (p.wakeupTime ≤ now)) =
      l.filter (fun p => decide (p.wakeupTime ≤ now))
  | [], _ => rfl
  | x :: l, h => by
    have hl : WakeSorted l := (List.pairwise_cons.1 h).2
    have hx := (List.pairwise_cons.1 h).1
    by_cases hd : x.wakeupTime ≤ now
    · simp [List.takeWhile_cons, List.filter_cons, hd, takeWhile_due_eq_filter now l hl]
    · have hnone : ∀ y ∈ l, ¬ y.wakeupTime ≤ now := by
        intro y hy hle
        exact hd (le_trans (hx y hy) hle)
      have : l.filter (fun p => decide (p.wakeupTime ≤ now)) = [] := by
        rw [List.filter_eq_nil_iff]
        intro y hy; simpa using hnone y hy
      simp [List.takeWhile_cons, List.filter_cons, hd, this]

theorem dropWhile_due_eq_filter (now : Int) : ∀ (l : List Process), WakeSorted l →
    l.dropWhile (fun p => decide (p.wakeupTime ≤ now)) =
      l.filter (fun p => decide (now < p.wakeupTime))
  | [], _ => rfl
  | x :: l, h => by
    have hl : WakeSorted l := (List.pairwise_cons.1 h).2
    have hx := (List.pairwise_cons.1 h).1
    by_cases hd : x.wakeupTime ≤ now
    · have hd2 : ¬ now < x.wakeupTime := not_lt.2 hd
      simp [List.dropWhile_cons, List.filter_cons, hd, hd2, dropWhile_due_eq_filter now l hl]
    · have hd2 : now < x.wakeupTime := not_le.1 hd
      have hall : ∀ y ∈ l, now < y.wakeupTime := by
        intro y hy
        exact lt_of_lt_of_le hd2 (hx y hy)
      have : l.filter (fun p => decide (now < p.wakeupTime)) = l := by
        rw [List.filter_eq_self]
        intro y hy; simpa using hall y hy
      simp [List.dropWhile_cons, List.filter_cons, hd, hd2, this]

namespace ProcessManager

/-- The loop of `wakeUpProcesses` removes the longest prefix of due processes and enqueues
its members in order. -/
theorem wakeLoop_eq (now : Int) : ∀ (wq : List Process) (dq : DynamicQueue)
    (wq1 : List Process) (dq1 : DynamicQueue),
    wakeLoop now wq dq = Except.ok (wq1, dq1) →
    wq1 = wq.dropWhile (fun p => decide (p.wakeupTime ≤ now)) ∧
    dq.enqueueAll (wq.takeWhile (fun p => decide (p.wakeupTime ≤ now))) = Except.ok dq1
  | [], dq, wq1, dq1, h => by
    simp only [wakeLoop] at h
    cases h
    exact ⟨rfl, rfl⟩
  | p :: rest, dq, wq1, dq1, h => by
    by_cases hd : p.wakeupTime ≤ now
    · simp only [wakeLoop, hd, if_true] at h
      cases he : dq.enqueue p with
      | error e => simp [he] at h
      | ok dq2 =>
        simp only [he] at h
        obtain ⟨h1, h2⟩ := wakeLoop_eq now rest dq2 wq1 dq1 h
        refine ⟨by simpa [List.dropWhile_cons, hd] using h1, ?_⟩
        simp [List.takeWhile_cons, hd, DynamicQueue.enqueueAll, he, h2]
    · simp only [wakeLoop, hd, if_false] at h
      cases h
      exact ⟨by simp [List.dropWhile_cons, hd], by simp [List.takeWhile_cons, hd, DynamicQueue.enqueueAll]⟩

/-- On a queue whose `top` and `bottom` are both null or both live, the loop of
`wakeUpProcesses` returns. -/
theorem wakeLoop_ok (now : Int) : ∀ (wq : List Process) (dq : DynamicQueue), dq.WellAnchored →
    ∃ r, wakeLoop now wq dq = Except.ok r
  | [], dq, _ => ⟨_, rfl⟩
  | p :: rest, dq, hq => by
    by_cases hd : p.wakeupTime ≤ now
    · obtain ⟨dq2, he, hq2⟩ := DynamicQueue.enqueue_ok dq p hq
      obtain ⟨r, hr⟩ := wakeLoop_ok now rest dq2 hq2
      exact ⟨r, by simp [wakeLoop, hd, he, hr]⟩
    · exact ⟨(p :: rest, dq), by simp [wakeLoop, hd]⟩

theorem wakeUpProcesses_some {pm pm1 : ProcessManager} (h : pm.wakeUpProcesses = Except.ok pm1) :
    wakeLoop pm.currentTime pm.waitQueue pm.dq = Except.ok (pm1.waitQueue, pm1.dq) ∧
      pm1.currentTime = pm.currentTime := by
  unfold wakeUpProcesses at h
  split at h
  · cases h
  · next wq dq1 hw => cases h; exact ⟨hw, rfl⟩

end ProcessManager

theorem orderedInsert_le_all (a : Process) : ∀ (l : List Process),
    (∀ b ∈ l, a.wakeupTime ≤ b.wakeupTime) →
    l.orderedInsert (fun x y => wakesEarlier y x = false) a = a :: l
  | [], _ => rfl
  | b :: l, h => by
    have hab : a.wakeupTime ≤ b.wakeupTime := h b (List.mem_cons_self _ _)
    simp [List.orderedInsert, wakesEarlier, hab]

/-- Sorting a sorted list with one record appended: the record is placed behind every record
whose `wakeupTime` is not larger, and the list is otherwise unchanged. -/
theorem listSort_snoc (p : Process) : ∀ (l : List Process), WakeSorted l →
    listSort wakesEarlier (l ++ [p]) =
      l.takeWhile (fun x => decide (x.wakeupTime ≤ p.wakeupTime)) ++
        p :: l.dropWhile (fun x => decide (x.wakeupTime ≤ p.wakeupTime))
  | [], _ => rfl
  | a :: l, h => by
    have hl : WakeSorted l := (List.pairwise_cons.1 h).2
    have ha := (List.pairwise_cons.1 h).1
    have ih := listSort_snoc p l hl
    have hstep : listSort wakesEarlier (a :: l ++ [p]) =
        (listSort wakesEarlier (l ++ [p])).orderedInsert
          (fun x y => wakesEarlier y x = false) a := rfl
    rw [hstep, ih]
    by_cases hap : a.wakeupTime ≤ p.wakeupTime
    · have hall : ∀ b ∈ l.takeWhile (fun x => decide (x.wakeupTime ≤ p.wakeupTime)) ++
          p :: l.dropWhile (fun x => decide (x.wakeupTime ≤ p.wakeupTime)),
          a.wakeupTime ≤ b.wakeupTime := by
        intro b hb
        rcases List.mem_append.1 hb with hb | hb
        · exact ha b ((List.takeWhile_sublist _).subset hb)
        · rcases List.mem_cons.1 hb with rfl | hb
          · exact hap
          · exact ha b ((List.dropWhile_sublist _).subset hb)
      rw [orderedInsert_le_all a _ hall]
      simp [List.takeWhile_cons, List.dropWhile_cons, hap]
    · have hlate : ∀ b ∈ l, ¬ b.wakeupTime ≤ p.wakeupTime := by
        intro b hb hle
        exact hap (le_trans (ha b hb) hle)
      have htake : l.takeWhile (fun x => decide (x.wakeupTime ≤ p.wakeupTime)) = [] := by
        cases l with
        | nil => rfl
        | cons b l => simp [List.takeWhile_cons, hlate b (List.mem_cons_self _ _)]
      have hdrop : l.dropWhile (fun x => decide (x.wakeupTime ≤ p.wakeupTime)) = l := by
        cases l with
        | nil => rfl
        | cons b l => simp [List.dropWhile_cons, hlate b (List.mem_cons_self _ _)]
      rw [htake, hdrop]
      have hpa : ¬ wakesEarlier p a = false := by simpa [wakesEarlier] using hap
      have hins : (p :: l).orderedInsert (fun x y => wakesEarlier y x = false) a =
          p :: l.orderedInsert (fun x y => wakesEarlier y x = false) a := by
        show (if wakesEarlier p a = false then a :: p :: l
          else p :: l.orderedInsert (fun x y => wakesEarlier y x = false) a) = _
        rw [if_neg hpa]
      rw [List.nil_append, hins, orderedInsert_le_all a l ha]
      simp [List.takeWhile_cons, List.dropWhile_cons, hap]

theorem wakeSorted_listSort (l : List Process) : WakeSorted (listSort wakesEarlier l) := by
  haveI : IsTotal Process (fun x y => wakesEarlier y x = false) :=
    ⟨fun a b => by simp only [wakesEarlier, decide_eq_false_iff_not, not_lt]; exact le_total _ _⟩
  haveI : IsTrans Process (fun x y => wakesEarlier y x = false) :=
    ⟨fun a b c hab hbc => by
      simp only [wakesEarlier, decide_eq_false_iff_not, not_lt] at *; exact le_trans hab hbc⟩
  have h := List.sorted_insertionSort (fun x y : Process => wakesEarlier y x = false) l
  refine List.Pairwise.imp ?_ h
  intro a b hab
  simpa [wakesEarlier] using hab

namespace ProcessManager

theorem runStep_some {pm pm1 : ProcessManager} {p : Process}
    (h : pm.runStep = Except.ok (some (p, pm1))) :
    ∃ dq1, pm.dq.dequeue = Except.ok (p, dq1) ∧
      (pm.afterQuantum p dq1).wakeUpProcesses = Except.ok pm1 := by
  unfold runStep at h
  split at h
  · cases h
  · split at h
    · cases h
    · next p2 dq1 hd =>
      split at h
      · cases h
      · cases hw : (pm.afterQuantum p2 dq1).wakeUpProcesses with
        | error e => simp [hw, Except.map] at h
        | ok pm2 =>
          simp only [hw, Except.map] at h
          injection h with h; injection h with h; injection h with h1 h2
          subst h1; subst h2
          exact ⟨dq1, hd, hw⟩

theorem waitInvariant_waitAfterRun {wq es : List Process} (p : Process)
    (h : WaitInvariant wq es) : WaitInvariant (waitAfterRun p wq) (es ++ entering p) := by
  obtain ⟨hs, hsub⟩ := h
  by_cases hp : 0 < p.remainingTime - 1
  · have he : entering p = [{ p with remainingTime := p.remainingTime - 1 }] := by
      simp [entering, hp]
    have h1 : waitAfterRun p wq =
        listSort wakesEarlier (wq ++ [{ p with remainingTime := p.remainingTime - 1 }]) := by
      simp [waitAfterRun, hp]
    refine ⟨by rw [h1]; exact wakeSorted_listSort _, ?_⟩
    intro w
    rw [h1, listSort_snoc _ wq hs, he]
    simp only [List.filter_append, List.filter_cons, List.filter_nil]
    by_cases hw : p.wakeupTime = w
    · -- the new record has wake-up time `w`: no record behind it has
      have hnone : (wq.dropWhile (fun x => decide (x.wakeupTime ≤ p.wakeupTime))).filter
          (fun q => decide (q.wakeupTime = w)) = [] := by
        rw [List.filter_eq_nil_iff]
        intro x hx
        have hx2 : x ∈ wq.filter (fun q => decide (p.wakeupTime < q.wakeupTime)) := by
          rw [← dropWhile_due_eq_filter _ _ hs]; exact hx
        have := (List.mem_filter.1 hx2).2
        simp only [decide_eq_true_eq] at this ⊢
        omega
      have hall : (wq.takeWhile (fun x => decide (x.wakeupTime ≤ p.wakeupTime))).filter
          (fun q => decide (q.wakeupTime = w)) = wq.filter (fun q => decide (q.wakeupTime = w)) := by
        have := congrArg (List.filter (fun q : Process => decide (q.wakeupTime = w)))
          (List.takeWhile_append_dropWhile (fun x : Process => decide (x.wakeupTime ≤ p.wakeupTime)) wq)
        rw [List.filter_append, hnone, List.append_nil] at this
        exact this
      simp only [hw, decide_True, if_true] at hnone hall ⊢
      rw [hall, hnone]
      exact List.Sublist.append (hsub w) (List.Sublist.refl _)
    · have hsplit : (wq.takeWhile (fun x => decide (x.wakeupTime ≤ p.wakeupTime))).filter
            (fun q => decide (q.wakeupTime = w)) ++
          (wq.dropWhile (fun x => decide (x.wakeupTime ≤ p.wakeupTime))).filter
            (fun q => decide (q.wakeupTime = w)) = wq.filter (fun q => decide (q.wakeupTime = w)) := by
        rw [← List.filter_append, List.takeWhile_append_dropWhile]
      simp only [hw, decide_False, if_false, List.append_nil, Bool.false_eq_true]
      rw [hsplit]
      exact hsub w
  · have he : entering p = [] := by simp [entering, hp]
    have h1 : waitAfterRun p wq = wq := by simp [waitAfterRun, hp]
    rw [h1, he, List.append_nil]
    exact ⟨hs, hsub⟩

theorem waitInvariant_sublist {wq wq1 es : List Process} (h : WaitInvariant wq es)
    (hsub : wq1.Sublist wq) : WaitInvariant wq1 es :=
  ⟨List.Pairwise.sublist hsub h.1, fun w => (hsub.filter _).trans (h.2 w)⟩

theorem createProcess_waitQueue {pm pm1 : ProcessManager} {fg : Bool} {d : Int}
    (h : pm.createProcess fg d = Except.ok pm1) : pm1.waitQueue = pm.waitQueue := by
  unfold createProcess at h
  split at h
  · cases h
  · cases h; rfl

theorem iterates_waitInvariant {pm0 pm : ProcessManager} {es : List Process}
    (h0 : pm0.waitQueue = []) (h : Iterates pm0 es pm) : WaitInvariant pm.waitQueue es := by
  induction h with
  | start => rw [h0]; exact ⟨List.Pairwise.nil, fun w => List.Sublist.refl _⟩
  | step p _ hstep ih =>
    obtain ⟨dq1, -, hw⟩ := runStep_some hstep
    obtain ⟨hloop, -⟩ := wakeUpProcesses_some hw
    obtain ⟨hwq, -⟩ := wakeLoop_eq _ _ _ _ _ hloop
    have hinv := waitInvariant_waitAfterRun p ih
    refine waitInvariant_sublist hinv ?_
    rw [hwq]
    exact List.dropWhile_sublist _
  | create fg d _ hc ih => rw [createProcess_waitQueue hc]; exact ih

end ProcessManager

/-! ## C8: the wait queue after one quantum -/

namespace ProcessManager

/-- C8 (as stated, refuted). In the state `pmLinked`, at clock value 0, the iteration of the
loop of `runProcesses` (lock statements left out) dispatches the process `fgProc 1`, whose
`remainingTime` is 3 and whose `wakeupTime` is 7, and ends in the state `pmLinkedNext`: the
record of the process is in the wait queue with `remainingTime` 2 and with `wakeupTime` still
7, while `currentTime + 1` is 1.  It is put there by lines 161-167, which do not assign
`wakeupTime`. -/
theorem wakeupTime_not_reset :
    pmLinked.runStep = Except.ok (some (fgProc 1, pmLinkedNext)) ∧
    (pmLinked.afterQuantum (fgProc 1) pmLinkedNext.dq).waitQueue =
      [{ fgProc 1 with remainingTime := 2 }] ∧
    pmLinkedNext.waitQueue = [{ fgProc 1 with remainingTime := 2 }] ∧
    (fgProc 1).wakeupTime = 7 ∧ pmLinked.currentTime + 1 = 1 ∧
    ¬ ∀ p ∈ pmLinkedNext.waitQueue, p.wakeupTime = pmLinked.currentTime + 1 := by
  decide

/-- C8 (amended). Let `dequeue` have returned the process `p` and the queue `dq1` in one
iteration of the loop of `runProcesses`.  In the state before the call of `wakeUpProcesses`
(line 169), when `p.remainingTime - 1` is positive the wait queue consists of the records of
the old wait queue and the record of `p` with `remainingTime` decremented by 1 and every other
member, `wakeupTime` included, unchanged; it is sorted by `wakeupTime`; and when the old wait
queue was sorted, the new record stands behind the records whose `wakeupTime` is not larger
than its own and the old records keep their order.  When `p.remainingTime - 1` is not
positive the wait queue is unchanged.  In both cases the queue is `dq1` and the clock has
advanced by 1. -/
theorem afterQuantum_wait_set (pm : ProcessManager) (p : Process) (dq1 : DynamicQueue) :
    (0 < p.remainingTime - 1 →
      (pm.afterQuantum p dq1).waitQueue.Perm
        (pm.waitQueue ++ [{ p with remainingTime := p.remainingTime - 1 }]) ∧
      (pm.afterQuantum p dq1).waitQueue.Pairwise (fun a b => a.wakeupTime ≤ b.wakeupTime) ∧
      (pm.waitQueue.Pairwise (fun a b => a.wakeupTime ≤ b.wakeupTime) →
        (pm.afterQuantum p dq1).waitQueue =
          pm.waitQueue.takeWhile (fun x => decide (x.wakeupTime ≤ p.wakeupTime)) ++
            { p with remainingTime := p.remainingTime - 1 } ::
              pm.waitQueue.dropWhile (fun x => decide (x.wakeupTime ≤ p.wakeupTime)))) ∧
    (p.remainingTime - 1 ≤ 0 → (pm.afterQuantum p dq1).waitQueue = pm.waitQueue) ∧
    (pm.afterQuantum p dq1).dq = dq1 ∧
    (pm.afterQuantum p dq1).currentTime = pm.currentTime + 1 := by
  refine ⟨?_, ?_, rfl, rfl⟩
  · intro hp
    have h1 : (pm.afterQuantum p dq1).waitQueue =
        listSort wakesEarlier (pm.waitQueue ++ [{ p with remainingTime := p.remainingTime - 1 }]) := by
      simp [afterQuantum, waitAfterRun, hp]
    rw [h1]
    refine ⟨List.perm_insertionSort _ _, wakeSorted_listSort _, ?_⟩
    intro hs
    exact listSort_snoc { p with remainingTime := p.remainingTime - 1 } pm.waitQueue hs
  · intro hp
    have hp2 : ¬ 0 < p.remainingTime - 1 := not_lt.2 hp
    simp [afterQuantum, waitAfterRun, hp2]

theorem afterQuantum_wait_set_witness :
    (pmWaiting.afterQuantum (fgProc 4) pmWaiting.dq).waitQueue =
      [waiter 1 1, waiter 2 2, { fgProc 4 with remainingTime := 2 }, waiter 3 9] := by
  have h := ((afterQuantum_wait_set pmWaiting (fgProc 4) pmWaiting.dq).1 (by decide)).2.2
    (by simp [pmWaiting, waiter])
  rw [h]
  decide

end ProcessManager

/-! ## C9: `wakeUpProcesses` -/

namespace Locks

/-- C9 (evaluation at the failing input). In the state `pmWaiting` the clock is at 3 and the
sorted wait queue holds processes with wake-up times 1, 2 and 9.  With the lock statements
left out, the body of `wakeUpProcesses` returns the state `pmWoken`, in which the first two
processes are stored in the queue and the third waits.  As written the call does not return,
neither when the calling thread holds no mutex nor when it is made from the loop of
`runProcesses`, which holds the mutex of the manager: the call of `enqueue` at line 179 locks
the mutex of the queue twice.  As written, a call of `wakeUpProcesses` returns only when the
first waiting process, if any, is not due, and then nothing has been moved. -/
theorem wakeUpProcesses_never_moves :
    pmWaiting.wakeUpProcesses = Except.ok pmWoken ∧
    wakeUpProcesses [] pmWaiting = Except.error Fault.relock ∧
    wakeUpProcesses [Mutex.manager] pmWaiting = Except.error Fault.relock ∧
    (∀ (held : List Mutex) (pm pm1 : ProcessManager),
      wakeUpProcesses held pm = Except.ok pm1 →
        pm1 = pm ∧ ∀ p, pm.waitQueue.head? = some p → pm.currentTime < p.wakeupTime) := by
  refine ⟨by decide, by decide, by decide, ?_⟩
  intro held pm pm1 h
  exact ⟨(wakeUpProcesses_unchanged h).1, (wakeUpProcesses_unchanged h).2.1⟩

end Locks

/-! ## C10: the order of the wait queue -/

namespace ProcessManager

/-- C10. First part: let the wait queue of `pm0` be empty, and let `pm` be reached from `pm0`
by iterations of the loop of `runProcesses` and calls of `createProcess` that return (lock
statements left out), the records `es` having entered the wait queue in this order; then the
wait queue of `pm` is sorted by `wakeupTime` in ascending order, and for every wake-up time
`w` the records of the wait queue with `wakeupTime = w` appear in the order in which they
occur in `es`.  Second part, the step that keeps this order: lines 161-167 put the record of
the dispatched process into a sorted wait queue behind the records whose `wakeupTime` is not
larger than its own, and leave the order of the other records unchanged.  Third part: every
iteration and every call of `createProcess` as written that returns is one of the first part,
with the same result (as written, the only iterations that return are those that leave the
loop). -/
theorem wait_set_sorted :
    (∀ (pm0 pm : ProcessManager) (es : List Process), pm0.waitQueue = [] → Iterates pm0 es pm →
      pm.waitQueue.Pairwise (fun a b => a.wakeupTime ≤ b.wakeupTime) ∧
      ∀ w : Int, (pm.waitQueue.filter (fun p => decide (p.wakeupTime = w))).Sublist
        (es.filter (fun p => decide (p.wakeupTime = w)))) ∧
    (∀ (wq : List Process) (p : Process),
      wq.Pairwise (fun a b => a.wakeupTime ≤ b.wakeupTime) → 0 < p.remainingTime - 1 →
      waitAfterRun p wq =
        wq.takeWhile (fun x => decide (x.wakeupTime ≤ p.wakeupTime)) ++
          { p with remainingTime := p.remainingTime - 1 } ::
            wq.dropWhile (fun x => decide (x.wakeupTime ≤ p.wakeupTime))) ∧
    (∀ (held : List Mutex) (pm : ProcessManager) (r : Option (Process × ProcessManager)),
      Locks.runStep held pm = Except.ok r → pm.runStep = Except.ok r) ∧
    (∀ (held : List Mutex) (pm pm1 : ProcessManager) (fg : Bool) (d : Int),
      Locks.createProcess held pm fg d = Except.ok pm1 →
        pm.createProcess fg d = Except.ok pm1) := by
  refine ⟨fun pm0 pm es h0 h => iterates_waitInvariant h0 h, ?_,
    fun held pm r h => Locks.runStep_refines h,
    fun held pm pm1 fg d h => absurd h (Locks.createProcess_ne_ok _ _ _ _ _)⟩
  intro wq p hs hp
  have h1 : waitAfterRun p wq =
      listSort wakesEarlier (wq ++ [{ p with remainingTime := p.remainingTime - 1 }]) := by
    simp [waitAfterRun, hp]
  rw [h1]
  exact listSort_snoc { p with remainingTime := p.remainingTime - 1 } wq hs

theorem wait_set_sorted_witness :
    waitAfterRun (waiter 4 5) [waiter 1 5, waiter 2 5, waiter 3 9] =
      [waiter 1 5, waiter 2 5, { waiter 4 5 with remainingTime := 1 }, waiter 3 9] ∧
    pmScenario.waitQueue.Pairwise (fun a b => a.wakeupTime ≤ b.wakeupTime) := by
  have h1 : Iterates (ProcessManager.new 9) [] pmScenarioFirst :=
    Iterates.create true 3 Iterates.start (by decide)
  have h2 : Iterates (ProcessManager.new 9) [] pmScenario :=
    Iterates.create false 1 h1 (by decide)
  refine ⟨?_, (wait_set_sorted.1 (ProcessManager.new 9) pmScenario [] rfl h2).1⟩
  rw [wait_set_sorted.2.1 _ _ (by simp [waiter]) (by decide)]
  decide

end ProcessManager

/-! ## Lemmas on the pids stored -/

theorem pidsOf_append (l1 l2 : List Process) : pidsOf (l1 ++ l2) = pidsOf l1 + pidsOf l2 := by
  simp [pidsOf]

theorem pidsOf_cons (p : Process) (l : List Process) : pidsOf (p :: l) = {p.pid} + pidsOf l := by
  simp [pidsOf]

theorem pidsOf_nil : pidsOf [] = 0 := rfl

theorem card_pidsOf (l : List Process) : Multiset.card (pidsOf l) = l.length := by
  simp [pidsOf]

theorem heapPids_append (h : Heap) (c : Option DQNode) :
    heapPids (h ++ [c]) = heapPids h + cellPids c := by
  simp [heapPids]

theorem heapPids_set : ∀ (h : Heap) (a : Nat) (c : Option DQNode), a < h.length →
    heapPids (h.set a c) + cellPids (cell h a) = heapPids h + cellPids c
  | [], a, c, ha => by simp at ha
  | x :: h, 0, c, _ => by
    simp only [List.set, heapPids, List.map_cons, List.sum_cons, cell, List.getD_cons_zero]
    abel
  | x :: h, a + 1, c, ha => by
    have ha1 : a < h.length := by simpa using ha
    have ih := heapPids_set h a c ha1
    simp only [List.set, heapPids, List.map_cons, List.sum_cons, cell, List.getD_cons_succ] at ih ⊢
    rw [add_assoc, ih, add_assoc]

theorem card_heapPids : ∀ (h : Heap), Multiset.card (heapPids h) = DynamicQueue.stored h
  | [] => rfl
  | c :: h => by
    have ih := card_heapPids h
    simp only [heapPids, DynamicQueue.stored, List.map_cons, List.sum_cons, Multiset.card_add] at ih ⊢
    rw [ih]
    cases c with
    | none => simp [cellPids]
    | some node => simp [cellPids, card_pidsOf]

namespace DynamicQueue

/-- Writing the node at a live address: the pids stored change by those of that node. -/
theorem heapPids_store {h : Heap} {a : Nat} {node : DQNode} (hnode : cell h a = some node)
    (c : Option DQNode) : heapPids (h.set a c) + pidsOf node.processes = heapPids h + cellPids c := by
  have := heapPids_set h a c (cell_lt hnode)
  rw [hnode] at this
  exact this

theorem heapPids_pushBack {q q1 : DynamicQueue} {a : Nat} {p : Process}
    (h : q.pushBack a p = Except.ok q1) : heapPids q1.heap = heapPids q.heap + {p.pid} := by
  unfold pushBack at h
  split at h
  · cases h
  · next node hnode =>
    cases h
    have := heapPids_store hnode (some { node with processes := node.processes ++ [p] })
    simp only [cellPids, pidsOf_append, pidsOf_cons, pidsOf_nil, add_zero] at this
    have h2 : heapPids (q.heap.set a (some { node with processes := node.processes ++ [p] })) +
        pidsOf node.processes = (heapPids q.heap + {p.pid}) + pidsOf node.processes := by
      rw [this]; abel
    exact add_right_cancel h2

theorem heapPids_pushNew (q : DynamicQueue) (p : Process) :
    heapPids (q.pushNew p).heap = heapPids q.heap + {p.pid} := by
  simp [pushNew, heapPids_append, cellPids, pidsOf_cons, pidsOf_nil]

theorem heapPids_place {q q1 : DynamicQueue} {p : Process} (h : q.place p = Except.ok q1) :
    heapPids q1.heap = heapPids q.heap + {p.pid} := by
  have key : ∀ r : Except Fault DynamicQueue,
      (∀ q2, r = Except.ok q2 → heapPids q2.heap = heapPids q.heap + {p.pid}) →
      (match r with
        | Except.error e => Except.error e
        | Except.ok q2 =>
          (Except.ok { q2 with currentProcesses := q2.currentProcesses + 1 } :
            Except Fault DynamicQueue)) = Except.ok q1 →
      heapPids q1.heap = heapPids q.heap + {p.pid} := by
    intro r hr hm
    cases r with
    | error e => cases hm
    | ok q2 => cases hm; exact hr q2 rfl
  refine key _ ?_ h
  intro q2 hq2
  split at hq2
  · split at hq2
    · cases hq2; exact heapPids_pushNew q p
    · exact heapPids_pushBack hq2
  · split at hq2
    · cases hq2; exact heapPids_pushNew q p
    · exact heapPids_pushBack hq2

theorem heapPids_splitAt {q : DynamicQueue} {a : Nat} {node : DQNode}
    (hnode : cell q.heap a = some node) : heapPids (q.splitAt a node).heap = heapPids q.heap := by
  have h1 := heapPids_store hnode
    (some { node with processes := node.processes.drop (node.processes.length / 2) })
  have h2 : pidsOf node.processes =
      pidsOf (node.processes.take (node.processes.length / 2)) +
        pidsOf (node.processes.drop (node.processes.length / 2)) := by
    rw [← pidsOf_append, List.take_append_drop]
  simp only [splitAt, heapPids_append, cellPids] at h1 ⊢
  have h3 : heapPids (q.heap.set a
        (some { node with processes := node.processes.drop (node.processes.length / 2) })) +
      pidsOf (node.processes.take (node.processes.length / 2)) +
        pidsOf (node.processes.drop (node.processes.length / 2)) =
      heapPids q.heap + pidsOf (node.processes.drop (node.processes.length / 2)) := by
    rw [add_assoc, ← h2, h1]
  exact add_right_cancel h3

theorem heapPids_splitLoop : ∀ (fuel : Nat) (q q1 : DynamicQueue),
    splitLoop fuel q = Except.ok q1 → heapPids q1.heap = heapPids q.heap
  | 0, q, q1, h => by simp [splitLoop] at h
  | fuel + 1, q, q1, h => by
    unfold splitLoop at h
    split at h
    · cases h
    · cases h; rfl
    · next q2 hq2 =>
      obtain ⟨a, node, htop, hnode, -, rfl⟩ := splitStep_some hq2
      exact (heapPids_splitLoop fuel _ q1 h).trans (heapPids_splitAt hnode)

theorem heapPids_enqueue {q q1 : DynamicQueue} {p : Process} (h : q.enqueue p = Except.ok q1) :
    heapPids q1.heap = heapPids q.heap + {p.pid} := by
  unfold enqueue at h
  split at h
  · cases h
  · next q2 hq2 => exact (heapPids_splitLoop _ q2 q1 h).trans (heapPids_place hq2)

theorem heapPids_take {q q1 : DynamicQueue} {p : Process} (h : q.take = Except.ok (p, q1)) :
    heapPids q1.heap + {p.pid} = heapPids q.heap := by
  unfold take at h
  split at h
  · cases h
  · next a htop =>
    split at h
    · cases h
    · next node hnode =>
      split at h
      · cases h
      · next p0 rest hps =>
        have key : ∀ c : Option DQNode, cellPids c = pidsOf rest →
            heapPids (q.heap.set a c) + {p0.pid} = heapPids q.heap := by
          intro c hc
          have h1 := heapPids_store hnode c
          rw [hps, pidsOf_cons, hc] at h1
          have h2 : heapPids (q.heap.set a c) + {p0.pid} + pidsOf rest =
              heapPids q.heap + pidsOf rest := by
            rw [add_assoc]; exact h1
          exact add_right_cancel h2
        split at h
        · next hrest =>
          split at h
          · cases h
          · cases h
            exact key none (by rw [hrest]; rfl)
        · cases h
          exact key _ rfl

/-- Moving the front process of the node at `a` to the back of the node at `t` keeps the pids
stored. -/
theorem heapPids_move {h : Heap} {t a : Nat} {topNode node : DQNode} {x y : Process}
    {rest : List Process} (hta : t ≠ a) (htop : cell h t = some topNode)
    (hnode : cell h a = some node) (hps : node.processes = x :: rest) (hx : y.pid = x.pid)
    (c : Option DQNode) (hc : cellPids c = pidsOf rest) :
    heapPids ((h.set t (some { topNode with processes := topNode.processes ++ [y] })).set a c) =
      heapPids h := by
  have h1 := heapPids_store htop (some { topNode with processes := topNode.processes ++ [y] })
  simp only [cellPids, pidsOf_append, pidsOf_cons, pidsOf_nil, add_zero, hx] at h1
  have hnode1 : cell (h.set t (some { topNode with processes := topNode.processes ++ [y] })) a =
      some node := by
    rw [cell_set_other _ hta]; exact hnode
  have h2 := heapPids_store hnode1 c
  rw [hps, pidsOf_cons, hc] at h2
  have h3 : heapPids ((h.set t
        (some { topNode with processes := topNode.processes ++ [y] })).set a c) +
      ({x.pid} + pidsOf rest + pidsOf topNode.processes) =
      heapPids h + ({x.pid} + pidsOf rest + pidsOf topNode.processes) := by
    calc heapPids ((h.set t
            (some { topNode with processes := topNode.processes ++ [y] })).set a c) +
          ({x.pid} + pidsOf rest + pidsOf topNode.processes)
        = (heapPids ((h.set t
            (some { topNode with processes := topNode.processes ++ [y] })).set a c) +
          ({x.pid} + pidsOf rest)) + pidsOf topNode.processes := by abel
      _ = (heapPids (h.set t
            (some { topNode with processes := topNode.processes ++ [y] })) +
            pidsOf topNode.processes) + pidsOf rest := by rw [h2]; abel
      _ = heapPids h + ({x.pid} + pidsOf rest + pidsOf topNode.processes) := by rw [h1]; abel
  exact add_right_cancel h3

theorem heapPids_promoteLoop : ∀ (fuel : Nat) (q : DynamicQueue) (p : Ptr) (q1 : DynamicQueue),
    promoteLoop fuel q p = Except.ok q1 → heapPids q1.heap = heapPids q.heap
  | 0, q, p, q1, h => by simp [promoteLoop] at h
  | fuel + 1, q, p, q1, h => by
    unfold promoteLoop at h
    split at h
    · cases h; rfl
    · next hne =>
      split at h
      · cases h
      · next a =>
        split at h
        · cases h
        · next node hnode =>
          split at h
          · split at h
            · cases h
            · exact heapPids_promoteLoop fuel _ _ _ h
          · next x rest hps =>
            split at h
            · cases h
            · next t htop =>
              have hta : t ≠ a := by
                intro e; apply hne; rw [htop, e]
              split at h
              · cases h
              · next topNode htn =>
                simp only [] at h
                split at h
                · cases h
                · split at h
                  · next hrest =>
                    have := heapPids_promoteLoop fuel _ _ _ h
                    exact this.trans
                      (heapPids_move (y := { x with isPromoted := true }) hta htn hnode hps rfl
                        none (by rw [hrest]; rfl))
                  · have := heapPids_promoteLoop fuel _ _ _ h
                    exact this.trans
                      (heapPids_move (y := { x with isPromoted := true }) hta htn hnode hps rfl
                        (some { node with processes := rest }) rfl)

theorem heapPids_promote {q q1 : DynamicQueue} (h : q.promote = Except.ok q1) :
    heapPids q1.heap = heapPids q.heap := by
  unfold promote at h
  split at h
  · cases h
  · next q2 hq2 =>
    exact (heapPids_splitLoop _ q2 q1 h).trans (heapPids_promoteLoop _ _ _ _ hq2)

theorem heapPids_dequeue {q q1 : DynamicQueue} {p : Process}
    (h : q.dequeue = Except.ok (p, q1)) : heapPids q1.heap + {p.pid} = heapPids q.heap := by
  unfold dequeue at h
  split at h
  · cases h
  · next p2 q2 hq2 =>
    split at h
    · cases h
    · next q3 hq3 =>
      cases h
      rw [heapPids_promote hq3]
      exact heapPids_take hq2

end DynamicQueue

namespace ProcessManager

theorem livePids_createProcess {pm pm1 : ProcessManager} {fg : Bool} {d : Int}
    (h : pm.createProcess fg d = Except.ok pm1) :
    livePids pm1 = livePids pm + {(pm.makeProcess fg d).pid} := by
  unfold createProcess at h
  split at h
  · cases h
  · next dq1 hdq =>
    cases h
    simp only [livePids, DynamicQueue.heapPids_enqueue hdq]
    abel

theorem livePids_wakeLoop (now : Int) : ∀ (wq : List Process) (dq : DynamicQueue)
    (wq1 : List Process) (dq1 : DynamicQueue),
    wakeLoop now wq dq = Except.ok (wq1, dq1) →
    heapPids dq1.heap + pidsOf wq1 = heapPids dq.heap + pidsOf wq
  | [], dq, wq1, dq1, h => by
    simp only [wakeLoop] at h
    cases h; rfl
  | p :: rest, dq, wq1, dq1, h => by
    by_cases hd : p.wakeupTime ≤ now
    · simp only [wakeLoop, hd, if_true] at h
      cases he : dq.enqueue p with
      | error e => simp [he] at h
      | ok dq2 =>
        simp only [he] at h
        rw [livePids_wakeLoop now rest dq2 wq1 dq1 h, DynamicQueue.heapPids_enqueue he,
          pidsOf_cons]
        abel
    · simp only [wakeLoop, hd, if_false] at h
      cases h; rfl

theorem pidsOf_perm {l1 l2 : List Process} (h : l1.Perm l2) : pidsOf l1 = pidsOf l2 :=
  Multiset.coe_eq_coe.2 (h.map _)

theorem pidsOf_waitAfterRun (p : Process) (wq : List Process) :
    pidsOf (waitAfterRun p wq) + pidsOf (finished p) = pidsOf wq + {p.pid} := by
  by_cases hp : 0 < p.remainingTime - 1
  · have h1 : waitAfterRun p wq =
        listSort wakesEarlier (wq ++ [{ p with remainingTime := p.remainingTime - 1 }]) := by
      simp [waitAfterRun, hp]
    have h2 : finished p = [] := by simp [finished, hp]
    have h3 : pidsOf (listSort wakesEarlier
        (wq ++ [{ p with remainingTime := p.remainingTime - 1 }])) =
        pidsOf (wq ++ [{ p with remainingTime := p.remainingTime - 1 }]) :=
      pidsOf_perm (List.perm_insertionSort _ _)
    rw [h1, h2, h3, pidsOf_append, pidsOf_cons, pidsOf_nil]
    abel
  · have h1 : waitAfterRun p wq = wq := by simp [waitAfterRun, hp]
    have h2 : finished p = [p] := by simp [finished, hp]
    rw [h1, h2, pidsOf_cons, pidsOf_nil]
    abel

theorem livePids_runStep {pm pm1 : ProcessManager} {p : Process}
    (h : pm.runStep = Except.ok (some (p, pm1))) :
    livePids pm1 + pidsOf (finished p) = livePids pm := by
  obtain ⟨dq1, hd, hw⟩ := runStep_some h
  obtain ⟨hloop, -⟩ := wakeUpProcesses_some hw
  have h1 := livePids_wakeLoop _ _ _ _ _ hloop
  have h2 := DynamicQueue.heapPids_dequeue hd
  have h3 := pidsOf_waitAfterRun p pm.waitQueue
  simp only [afterQuantum] at h1
  simp only [livePids]
  rw [h1, ← h2]
  calc heapPids dq1.heap + pidsOf (waitAfterRun p pm.waitQueue) + pidsOf (finished p)
      = heapPids dq1.heap + (pidsOf (waitAfterRun p pm.waitQueue) + pidsOf (finished p)) := by
        abel
    _ = heapPids dq1.heap + {p.pid} + pidsOf pm.waitQueue := by rw [h3]; abel

theorem runs_livePids {pm0 pm : ProcessManager} {adm fin : List Process}
    (h : Runs pm0 adm fin pm) :
    livePids pm + pidsOf fin = livePids pm0 + pidsOf adm := by
  induction h with
  | start => rfl
  | create fg d _ hc ih =>
    rw [livePids_createProcess hc, pidsOf_append, pidsOf_cons, pidsOf_nil]
    calc livePids _ + {(ProcessManager.makeProcess _ fg d).pid} + pidsOf _
        = (livePids _ + pidsOf _) + {(ProcessManager.makeProcess _ fg d).pid} := by abel
      _ = _ := by rw [ih]; abel
  | step p _ hs ih =>
    rw [pidsOf_append, ← ih, ← livePids_runStep hs]
    abel

theorem card_livePids (pm : ProcessManager) :
    Multiset.card (livePids pm) = DynamicQueue.stored pm.dq.heap + pm.waitQueue.length := by
  simp [livePids, card_heapPids, card_pidsOf]

end ProcessManager

/-! ## C11: conservation of processes -/

namespace ProcessManager

/-- C11. Let `pm` be reached from `pm0` by calls of `createProcess` and iterations of the loop
of `runProcesses` that return (lock statements left out), `adm` being the processes admitted
and `fin` the dispatched processes discarded as complete.  Then the number of processes stored
in the levels of the queue plus the number in the wait queue plus the number discarded equals
the number stored and waiting in `pm0` (zero for a fresh manager) plus the number admitted; and
the same holds for the pids, counted with multiplicity: no process is lost or duplicated.
Every iteration and every call of `createProcess` as written that returns is one of these,
with the same result (as written, the only iterations that return are those that leave the
loop, and no call of `createProcess` returns). -/
theorem processes_conserved :
    (∀ (pm0 pm : ProcessManager) (adm fin : List Process), Runs pm0 adm fin pm →
      DynamicQueue.stored pm.dq.heap + pm.waitQueue.length + fin.length =
        DynamicQueue.stored pm0.dq.heap + pm0.waitQueue.length + adm.length ∧
      livePids pm + pidsOf fin = livePids pm0 + pidsOf adm) ∧
    (∀ (held : List Mutex) (pm : ProcessManager) (r : Option (Process × ProcessManager)),
      Locks.runStep held pm = Except.ok r → pm.runStep = Except.ok r) ∧
    (∀ (held : List Mutex) (pm pm1 : ProcessManager) (fg : Bool) (d : Int),
      Locks.createProcess held pm fg d = Except.ok pm1 →
        pm.createProcess fg d = Except.ok pm1) := by
  refine ⟨?_, fun held pm r h => Locks.runStep_refines h,
    fun held pm pm1 fg d h => absurd h (Locks.createProcess_ne_ok _ _ _ _ _)⟩
  intro pm0 pm adm fin h
  have hp := runs_livePids h
  refine ⟨?_, hp⟩
  have := congrArg Multiset.card hp
  simpa [card_livePids, card_pidsOf] using this

theorem processes_conserved_witness :
    DynamicQueue.stored pmScenario.dq.heap + pmScenario.waitQueue.length +
        ([] : List Process).length =
      DynamicQueue.stored (ProcessManager.new 9).dq.heap +
        (ProcessManager.new 9).waitQueue.length +
        ([] ++ [(ProcessManager.new 9).makeProcess true 3] ++
          [pmScenarioFirst.makeProcess false 1]).length ∧
    DynamicQueue.stored pmScenario.dq.heap = 2 :=
  ⟨(processes_conserved.1 (ProcessManager.new 9) pmScenario _ []
    (Runs.create false 1 (Runs.create true 3 Runs.start (by decide)) (by decide))).1,
    by decide⟩

end ProcessManager

/-! ## C12: termination of the scheduler loop -/

namespace ProcessManager

/-- When the first iteration does not return, `runProcesses` does not return. -/
theorem runProcesses_of_runStep_error {pm : ProcessManager} {e : Fault}
    (h : pm.runStep = Except.error e) :
    ∀ (fuel : Nat) (r : List Process × ProcessManager), runProcesses fuel pm ≠ Except.ok r
  | 0, r => by simp [runProcesses]
  | fuel + 1, r => by simp [runProcesses, h]

/-- C12 (evaluation at the failing input). On a fresh manager of capacity 10,
`createProcess(true, 5)` returns the state `pmOne`.  The first iteration of the loop of
`runProcesses` in that state does not return: `dequeue` pops the only process and reads the
member `next` of the emptied top node, which no statement has ever assigned.  Hence
`runProcesses` does not reach its exit condition, whatever the number of iterations allowed.
In the state `pmStarved`, whose queue has no level while one process waits, the iteration
calls `dequeue`, which blocks. -/
theorem runProcesses_never_exits :
    (ProcessManager.new 10).createProcess true 5 = Except.ok pmOne ∧
    pmOne.runStep = Except.error Fault.indeterminateRead ∧
    (∀ (fuel : Nat) (r : List Process × ProcessManager),
      runProcesses fuel pmOne ≠ Except.ok r) ∧
    pmStarved.runStep = Except.error Fault.blocked := by
  have h : pmOne.runStep = Except.error Fault.indeterminateRead := by decide
  exact ⟨by decide, h, runProcesses_of_runStep_error h, by decide⟩

end ProcessManager

/-! ## C13: the example scenario -/

namespace ProcessManager

/-- C13 (evaluation at the failing input). On a fresh manager of capacity 9,
`createProcess(true, 3)` followed by `createProcess(false, 1)` returns the state `pmScenario`,
whose only level holds process A with `remainingTime` 1 and process B with `remainingTime` 0.
The first `dequeue` returns A; after its quantum A is discarded, not put into the wait queue
with `remainingTime` 2.  The iteration itself does not return: the walk of `printDQ` reads the
member `next` of the bottom node, which no statement has ever assigned; hence `runProcesses`
does not run to completion. -/
theorem scenario_trace :
    ((ProcessManager.new 9).createProcess true 3).bind (fun pm => pm.createProcess false 1) =
      Except.ok pmScenario ∧
    pmScenario.dq.level pmScenario.dq.top = some [procA, procB] ∧
    procA.remainingTime = 1 ∧ procB.remainingTime = 0 ∧
    pmScenario.dq.dequeue = Except.ok (procA, scenarioRest) ∧
    (pmScenario.afterQuantum procA scenarioRest).waitQueue = [] ∧
    pmScenario.runStep = Except.error Fault.indeterminateRead ∧
    (∀ (fuel : Nat) (r : List Process × ProcessManager),
      runProcesses fuel pmScenario ≠ Except.ok r) := by
  have h : pmScenario.runStep = Except.error Fault.indeterminateRead := by decide
  exact ⟨by decide, by decide, by decide, by decide, by decide, by decide, h,
    runProcesses_of_runStep_error h⟩

end ProcessManager

/-! ## Lemmas on the runs from a fresh manager -/

namespace DynamicQueue

end DynamicQueue

namespace ProcessManager

/-- In every state reached through the member functions of the queue that has a level, the
walk of `printDQ` reads the member `next` of the bottom node, which was never assigned. -/
theorem printDQ_of_reachable {capacity : Int} {q : DynamicQueue}
    (hr : DynamicQueue.Reachable capacity q) (hb : q.bottom ≠ Ptr.null)
    (wq : List Process) (now : Int) :
    printDQ { dq := q, waitQueue := wq, currentTime := now } =
      Except.error Fault.indeterminateRead := by
  rcases DynamicQueue.reachable_shaped hr with ⟨-, h⟩ | ⟨t, b, l, -, hbot, c⟩
  · exact absurd h hb
  · obtain ⟨node, hnode, hnext⟩ := c.bottom_last
    simp [printDQ, DynamicQueue.getBottom, hbot, printLoop, hnode, hnext]

end ProcessManager

/-! ## C14: uniqueness of pids -/

namespace ProcessManager

end ProcessManager

/-! ## C15: the links from `bottom` -/

namespace ProcessManager

/-- C15 (evaluation at the failing input). On a fresh queue of capacity 3, `enqueue` of the
foreground processes 1 and 2 returns the state `twoLevels`: `top` is the node at address 1,
`bottom` the node at address 0, the `next` of the top node points to the bottom node, and the
`next` of the bottom node was never assigned.  The walk of `printDQ` from `bottom` does not
reach `top`: it reads the `next` of the bottom node.  The same happens in every state with a
level that is reached through the member functions of the queue. -/
theorem walk_from_bottom_stops :
    (DynamicQueue.new 3).enqueueAll [fgProc 1, fgProc 2] = Except.ok twoLevels ∧
    twoLevels.top = Ptr.addr 1 ∧ twoLevels.bottom = Ptr.addr 0 ∧
    (cell twoLevels.heap 1).map DQNode.next = some (some (Ptr.addr 0)) ∧
    (cell twoLevels.heap 0).map DQNode.next = some none ∧
    printDQ { dq := twoLevels, waitQueue := [], currentTime := 0 } =
      Except.error Fault.indeterminateRead ∧
    (∀ (capacity : Int) (q : DynamicQueue), DynamicQueue.Reachable capacity q →
      q.bottom ≠ Ptr.null → ∀ (wq : List Process) (now : Int),
        printDQ { dq := q, waitQueue := wq, currentTime := now } =
          Except.error Fault.indeterminateRead) := by
  refine ⟨by decide, rfl, rfl, by decide, by decide, by decide, ?_⟩
  intro capacity q hr hb wq now
  exact printDQ_of_reachable hr hb wq now

end ProcessManager

/-! ## C16: `top` and `bottom` after the last process is dequeued -/

namespace DynamicQueue

/-- C16 (evaluation at the failing input). On a fresh queue of capacity 9,
`enqueue (fgProc 1)` returns the state `oneProcess`.  In that state lines 68-78 of `dequeue`
do not return: line 75 reads the member `next` of the node, which was never assigned.  In the
state `oneLinked`, which differs from `oneProcess` only in that this member holds the null
pointer, lines 68-78 delete the node and set `top` to null, while `bottom` still holds the
address of the deleted node; the walk of `promote` then dereferences it. -/
theorem bottom_left_dangling :
    (DynamicQueue.new 9).enqueue (fgProc 1) = Except.ok oneProcess ∧
    oneProcess.take = Except.error Fault.indeterminateRead ∧
    oneLinked.take = Except.ok (fgProc 1, oneLinkedTaken) ∧
    oneLinkedTaken.top = Ptr.null ∧ oneLinkedTaken.bottom = Ptr.addr 0 ∧
    cell oneLinkedTaken.heap 0 = none ∧
    oneLinked.dequeue = Except.error Fault.invalidAccess := by
  decide

end DynamicQueue

/-! ## C17: `dequeue` on an empty top level -/

namespace DynamicQueue

/-- C17 (evaluation at the failing input). On a fresh queue of capacity 0 (threshold 0),
`enqueue (fgProc 1)` returns the state `zeroCapacity`: the split of the one-process level has
moved `1 / 2 = 0` processes into the new top node, so `top` is not null and the top level is
empty.  `dequeue` in that state passes its wait condition and calls `front()` on the empty
list. -/
theorem dequeue_reads_empty_top :
    (DynamicQueue.new 0).enqueue (fgProc 1) = Except.ok zeroCapacity ∧
    zeroCapacity.top = Ptr.addr 1 ∧
    zeroCapacity.level zeroCapacity.top = some [] ∧
    zeroCapacity.dequeue = Except.error Fault.emptyList := by
  decide

end DynamicQueue

/-! ## C18: locking -/

namespace Locks

/-- C18 (evaluation at the failing input). Called by a thread that holds no mutex, `enqueue`
on a fresh queue does not return: it locks the mutex of the queue at line 44 and, with the
guard in scope, calls `split_n_merge` at line 63, whose first statement locks the same mutex.
The same happens in `createProcess` (through `enqueue`), in `promote` (line 100), in `dequeue`
(through `promote`, line 79) and in `printDQ` when it is called from the loop of
`runProcesses`, which holds the mutex of the manager.  No call of `enqueue` by a thread that
holds no mutex returns, whatever the queue and the process. -/
theorem enqueue_locks_twice :
    enqueue [] (DynamicQueue.new 9) (fgProc 1) = Except.error Fault.relock ∧
    createProcess [] (ProcessManager.new 10) true 5 = Except.error Fault.relock ∧
    promote [] (DynamicQueue.new 9) = Except.error Fault.relock ∧
    dequeue [] twoInTop = Except.error Fault.relock ∧
    printDQ [Mutex.manager] pmTwo = Except.error Fault.relock ∧
    (∀ (q : DynamicQueue) (p : Process) (r : DynamicQueue), enqueue [] q p ≠ Except.ok r) := by
  refine ⟨by decide, by decide, by decide, by decide, by decide, ?_⟩
  intro q p r
  unfold enqueue
  cases hp : q.place p with
  | error e => simp [acquire]
  | ok q1 =>
    simp [acquire, split_n_merge_held]

end Locks

/-! ## C19: termination of `split_n_merge` -/

namespace DynamicQueue

/-- A split step leaves a strictly smaller top level. -/
theorem topSize_splitAt_lt {q : DynamicQueue} {a : Nat} {node : DQNode}
    (htop : q.top = Ptr.addr a) (hnode : cell q.heap a = some node)
    (hex : exceeds node.processes.length q.threshold = true) :
    (q.splitAt a node).topSize < q.topSize := by
  rw [topSize_eq (a := q.heap.length) rfl (cell_splitAt_new q a node), topSize_eq htop hnode]
  have hpos := exceeds_pos hex
  simp only [List.length_take]
  have : node.processes.length / 2 < node.processes.length := Nat.div_lt_self hpos (by decide)
  omega

/-- With more fuel than the top level has processes, the result of the recursion of
`split_n_merge` does not depend on the fuel. -/
theorem splitLoop_fuel : ∀ (f1 f2 : Nat) (q : DynamicQueue), q.topSize < f1 → q.topSize < f2 →
    splitLoop f1 q = splitLoop f2 q
  | 0, _, q, h1, _ => by omega
  | _ + 1, 0, q, _, h2 => by omega
  | f1 + 1, f2 + 1, q, h1, h2 => by
    rcases splitStep_cases q with ⟨-, hs⟩ | ⟨a, -, -, hs⟩ | ⟨a, node, -, -, -, hs⟩ |
      ⟨a, node, htop, hnode, hex, hs⟩
    · simp [splitLoop, hs]
    · simp [splitLoop, hs]
    · simp [splitLoop, hs]
    · have hlt := topSize_splitAt_lt htop hnode hex
      simp only [splitLoop, hs]
      exact splitLoop_fuel f1 f2 _ (by omega) (by omega)

/-- With more fuel than the top level has processes, the recursion of `split_n_merge` does
not run out of fuel. -/
theorem splitLoop_ne_fuel : ∀ (fuel : Nat) (q : DynamicQueue), q.topSize < fuel →
    splitLoop fuel q ≠ Except.error Fault.fuel
  | 0, q, h => by omega
  | fuel + 1, q, h => by
    rcases splitStep_cases q with ⟨-, hs⟩ | ⟨a, -, -, hs⟩ | ⟨a, node, -, -, -, hs⟩ |
      ⟨a, node, htop, hnode, hex, hs⟩
    · simp [splitLoop, hs]
    · simp [splitLoop, hs]
    · simp [splitLoop, hs]
    · have hlt := topSize_splitAt_lt htop hnode hex
      simp only [splitLoop, hs]
      exact splitLoop_ne_fuel fuel _ (by omega)

end DynamicQueue

namespace Locks

/-- C19 (evaluation at the failing input). On a fresh queue of capacity 0 (threshold 0),
lines 45-61 of `enqueue (fgProc 1)` lead to the state `placedZero`, in which `enqueue` calls
`split_n_merge`; that call does not return, because the calling thread holds the mutex of the
queue.  Called in the same state by a thread that holds no mutex, `split_n_merge` does not
return either: the split step leaves a top level with fewer processes, but the nested call of
line 116 is made with the guard of line 104 in scope and locks the same mutex.  The same holds
for every queue on which the condition of line 105 is true, whatever the mutexes held. -/
theorem nested_split_n_merge_relocks :
    (DynamicQueue.new 0).place (fgProc 1) = Except.ok placedZero ∧
    split_n_merge [Mutex.queue] placedZero = Except.error Fault.relock ∧
    (∃ q1, placedZero.splitStep = Except.ok (some q1) ∧ q1.topSize < placedZero.topSize) ∧
    split_n_merge [] placedZero = Except.error Fault.relock ∧
    (∀ (held : List Mutex) (q q1 : DynamicQueue), q.splitStep = Except.ok (some q1) →
      split_n_merge held q = Except.error Fault.relock) := by
  refine ⟨by decide, by decide, ⟨_, rfl, by decide⟩, by decide, ?_⟩
  intro held q q1 hs
  exact split_n_merge_of_some hs

end Locks

/-! ## C20: `split_n_merge` keeps the content of the queue -/

namespace DynamicQueue

theorem content_congr {h1 h2 : Heap} : ∀ (l : List Nat),
    (∀ a ∈ l, cell h1 a = cell h2 a) → content h1 l = content h2 l
  | [], _ => rfl
  | a :: l, h => by
    simp only [content]
    rw [h a (List.mem_cons_self _ _),
      content_congr l (fun x hx => h x (List.mem_cons_of_mem _ hx))]

theorem cell_splitAt_old (q : DynamicQueue) {a : Nat} (node : DQNode)
    (ha : a < q.heap.length) :
    cell (q.splitAt a node).heap a =
      some { node with processes := node.processes.drop (node.processes.length / 2) } := by
  show cell (_ ++ _) a = _
  rw [cell_append_old _ (by simpa using ha)]
  exact cell_set_same _ ha

theorem cell_splitAt_other (q : DynamicQueue) {a b : Nat} (node : DQNode)
    (hab : b ≠ a) (hb : b < q.heap.length) :
    cell (q.splitAt a node).heap b = cell q.heap b := by
  show cell (_ ++ _) b = _
  rw [cell_append_old _ (by simpa using hb)]
  exact cell_set_other _ (Ne.symm hab)

/-- The chain of levels after a split step: the new node in front of the old chain. -/
theorem Chain.splitAt {q : DynamicQueue} {t b : Nat} {l : List Nat} {node : DQNode}
    (c : Chain q.heap t b l) (hnode : cell q.heap t = some node) :
    Chain (q.splitAt t node).heap q.heap.length b (q.heap.length :: l) := by
  have c1 := (c.set_processes hnode
    (node.processes.drop (node.processes.length / 2))).append
    (some { processes := node.processes.take (node.processes.length / 2),
            next := some (Ptr.addr t) })
  refine Chain.link (cell_splitAt_new q t node) rfl ?_ c1
  intro hmem
  exact Nat.lt_irrefl _ (c.lt_length _ hmem)

/-- A split step does not change the processes read along the chain of levels. -/
theorem content_splitAt {q : DynamicQueue} {t b : Nat} {l : List Nat} {node : DQNode}
    (c : Chain q.heap t b l) (hnode : cell q.heap t = some node) :
    content (q.splitAt t node).heap (q.heap.length :: l) = content q.heap l := by
  have ht := cell_lt hnode
  have hrest : ∀ l1 : List Nat, t ∉ l1 → (∀ a ∈ l1, a < q.heap.length) →
      content (q.splitAt t node).heap l1 = content q.heap l1 := by
    intro l1 hnot hlt
    apply content_congr
    intro a ha
    exact cell_splitAt_other q node (fun e => hnot (e ▸ ha)) (hlt a ha)
  have hlen := c.lt_length
  cases c with
  | single hn hx =>
    simp only [content, cell_splitAt_new, cell_splitAt_old q node ht, hnode, List.append_nil,
      List.take_append_drop]
  | @link _ a1 _ l1 n1 hn hx hnot c1 =>
    simp only [content, cell_splitAt_new, cell_splitAt_old q node ht, hnode]
    rw [hrest l1 hnot (fun a ha => hlen a (List.mem_cons_of_mem _ ha)), ← List.append_assoc,
      List.take_append_drop]

/-- The recursion of `split_n_merge` on a chain of levels: it returns, the new levels are put
in front of the old chain, the processes read along the chain are the same, and the nodes
below the old top node are unchanged. -/
theorem splitLoop_content : ∀ (fuel : Nat) (q : DynamicQueue) (t b : Nat) (l : List Nat),
    q.topSize < fuel → q.top = Ptr.addr t → Chain q.heap t b l →
    ∃ q1 t1 pre, splitLoop fuel q = Except.ok q1 ∧ q1.top = Ptr.addr t1 ∧
      q1.bottom = q.bottom ∧ Chain q1.heap t1 b (pre ++ l) ∧
      content q1.heap (pre ++ l) = content q.heap l ∧
      ∀ a ∈ l, a ≠ t → cell q1.heap a = cell q.heap a
  | 0, q, t, b, l, hf, _, _ => by omega
  | fuel + 1, q, t, b, l, hf, htop, c => by
    obtain ⟨node, hnode⟩ := c.top_live
    cases hex : exceeds node.processes.length q.threshold with
    | false =>
      exact ⟨q, t, [], by simp [splitLoop, splitStep_of_not_exceeds htop hnode hex], htop, rfl,
        c, rfl, fun a _ _ => rfl⟩
    | true =>
      have hlt := topSize_splitAt_lt htop hnode hex
      obtain ⟨q1, t1, pre, h1, ht1, hb1, c1, hc1, hcell⟩ :=
        splitLoop_content fuel (q.splitAt t node) q.heap.length b (q.heap.length :: l)
          (by omega) rfl (c.splitAt hnode)
      refine ⟨q1, t1, pre ++ [q.heap.length], ?_, ht1, hb1, ?_, ?_, ?_⟩
      · simp [splitLoop, splitStep_of_exceeds htop hnode hex, h1]
      · simpa using c1
      · rw [List.append_assoc]
        exact hc1.trans (content_splitAt c hnode)
      · intro a ha hat
        have halt : a < q.heap.length := c.lt_length a ha
        rw [hcell a (List.mem_cons_of_mem _ ha) (Nat.ne_of_lt halt)]
        exact cell_splitAt_other q node hat halt

end DynamicQueue

namespace Locks

end Locks

end ConsoleApplication3
